import Mathlib

/-!
# DML-to-Backup-Select Transformation Engine: a verification model

This file embeds the prior-backup machinery of the bytebase data-update
executor: the DML-to-backup-SELECT transformation engine (script splitting
with span tracking, dialect grammar analysis of DELETE/UPDATE statements,
backup naming, and statement synthesis) together with the `backupData`
orchestration of `backend/runner/taskrun/data_update_executor.go`.

The transformation engine itself (`base.TransformDMLToSelect`) is specified
by its behavioural fixtures (input script / expected TransformResult pairs)
and by the natural-language specification; the definitions below are
modelled from that specification and validated against the full fixture
corpus.
-/

set_option maxRecDepth 65536

namespace BytebaseBackup

/-- A source position: `line` is 1-based, `column` is 0-based. -/
structure Position where
  line : Nat
  column : Nat
deriving DecidableEq, Repr

/-- Characters treated as insignificant whitespace by the splitter. -/
def isSpaceChar (c : Char) : Bool :=
  c = ' ' || c = '\n' || c = '\t' || c = '\r'

/-- Advance a position over one character: newline moves to the next line,
column 0; anything else advances the column. -/
def advancePos (p : Position) (c : Char) : Position :=
  if c = '\n' then ⟨p.line + 1, 0⟩ else ⟨p.line, p.column + 1⟩

/-- Annotate every character of a script with the position at which it
occurs, starting from `p`. -/
def annotate : List Char → Position → List (Char × Position)
  | [], _ => []
  | c :: cs, p => (c, p) :: annotate cs (advancePos p c)

/-- Modelled from the spec: the splitter fails on a script with
unterminated quoting (`MalformedScript`). -/
inductive SplitError
  | malformedScript
deriving DecidableEq, Repr

/-- Lexical quoting state of the splitter. -/
inductive QuoteState
  | normal
  | single
  | double
deriving DecidableEq, Repr

/-- One step of the splitter's quoting automaton. -/
def quoteStep (qs : QuoteState) (c : Char) : QuoteState :=
  match qs with
  | .normal => if c = '\'' then .single else if c = '"' then .double else .normal
  | .single => if c = '\'' then .normal else .single
  | .double => if c = '"' then .normal else .double

/-- Extend the current (first) segment of a splitting result by one
annotated character. -/
def consCur (cp : Char × Position) :
    Except SplitError (List (List (Char × Position))) →
    Except SplitError (List (List (Char × Position)))
  | .ok [] => .ok [[cp]]
  | .ok (s :: ss) => .ok ((cp :: s) :: ss)
  | .error e => .error e

/-- Modelled from the spec: `base.TransformDMLToSelect`'s script splitter is
not under src/. It divides an annotated script into raw segments at the `;`
terminator, skipping terminators that occur inside string or identifier
quoting (spec §4.1); a script that ends inside a quoted literal is a
`MalformedScript`. The terminator characters are dropped; every other
character stays in its segment. -/
def splitSegs : List (Char × Position) → QuoteState →
    Except SplitError (List (List (Char × Position)))
  | [], .normal => .ok [[]]
  | [], .single => .error .malformedScript
  | [], .double => .error .malformedScript
  | (c, p) :: rest, .normal =>
    if c = ';' then
      match splitSegs rest .normal with
      | .ok segs => .ok ([] :: segs)
      | .error e => .error e
    else consCur (c, p) (splitSegs rest (quoteStep .normal c))
  | (c, p) :: rest, .single => consCur (c, p) (splitSegs rest (quoteStep .single c))
  | (c, p) :: rest, .double => consCur (c, p) (splitSegs rest (quoteStep .double c))

/-- Strip insignificant whitespace from both ends of an annotated segment. -/
def trimAnn (l : List (Char × Position)) : List (Char × Position) :=
  ((l.dropWhile (fun cp => isSpaceChar cp.1)).reverse.dropWhile
    (fun cp => isSpaceChar cp.1)).reverse

/-- Characters that may form part of a word token (identifier or number). -/
def isWordChar (c : Char) : Bool :=
  c.isAlphanum || c = '_'

/-- Index (into the statement's significant text) of the first character of
its last token.  A token is a maximal run of word characters or a single
non-space punctuation character. -/
def tokIdxGo : List Char → Nat → Nat → Bool → Nat
  | [], _, best, _ => best
  | c :: rest, i, best, inWord =>
    if isSpaceChar c then tokIdxGo rest (i + 1) best false
    else if isWordChar c then
      if inWord then tokIdxGo rest (i + 1) best true
      else tokIdxGo rest (i + 1) i true
    else tokIdxGo rest (i + 1) i false

/-- Index of the first character of the last token of a statement text. -/
def lastTokenIdx (cs : List Char) : Nat :=
  tokIdxGo cs 0 0 false

/-- A statement produced by the splitter: its significant text (terminator
and surrounding whitespace excluded) and the source span recorded for it.
Per the fixture corpus, `endPosition` is the position of the first character
of the statement's last token. -/
structure RawStatement where
  text : List Char
  startPosition : Position
  endPosition : Position
deriving DecidableEq, Repr

/-- Build the statement record for one trimmed segment; empty segments
produce no statement. -/
def mkStatement (seg : List (Char × Position)) : Option RawStatement :=
  match trimAnn seg with
  | [] => none
  | (c, p) :: rest =>
    some { text := ((c, p) :: rest).map Prod.fst
         , startPosition := p
         , endPosition :=
             (((c, p) :: rest).getD (lastTokenIdx (((c, p) :: rest).map Prod.fst)) (c, p)).2 }

/-- Modelled from the spec: `split(script) -> ordered sequence of
Statement` (spec §4.1); positions are assigned by scanning the raw text
from line 1, column 0. -/
def splitScript (s : String) : Except SplitError (List RawStatement) :=
  match splitSegs (annotate s.data ⟨1, 0⟩) .normal with
  | .ok segs => .ok (segs.filterMap mkStatement)
  | .error e => .error e

/-! ## Dialect grammar adapter -/

/-- Drop leading whitespace of a statement fragment. -/
def skipSpaces (cs : List Char) : List Char :=
  cs.dropWhile isSpaceChar

/-- The maximal leading run of non-space characters. -/
def takeWord (cs : List Char) : List Char :=
  cs.takeWhile (fun c => !isSpaceChar c)

/-- Drop the maximal leading run of non-space characters. -/
def dropWord (cs : List Char) : List Char :=
  cs.dropWhile (fun c => !isSpaceChar c)

/-- Strip whitespace from both ends of a fragment. -/
def trimChars (cs : List Char) : List Char :=
  ((cs.dropWhile isSpaceChar).reverse.dropWhile isSpaceChar).reverse

/-- `isKw kw cs` recognizes the keyword `kw` (given in upper case) at the
head of `cs`, case-insensitively, requiring the keyword to be followed by
whitespace or the end of the fragment; it returns the remainder (boundary
whitespace included). -/
def isKw : List Char → List Char → Option (List Char)
  | [], [] => some []
  | [], c :: rest => if isSpaceChar c then some (c :: rest) else none
  | _ :: _, [] => none
  | k :: ks, c :: rest => if c.toUpper = k then isKw ks rest else none

def kwDELETE : List Char := "DELETE".data
def kwUPDATE : List Char := "UPDATE".data
def kwFROM : List Char := "FROM".data
def kwUSING : List Char := "USING".data
def kwSET : List Char := "SET".data
def kwWHERE : List Char := "WHERE".data

/-- Result of scanning for the first occurrence of one of two keywords. -/
inductive KwHit
  | first (after : List Char)
  | second (after : List Char)
  | noHit
deriving DecidableEq, Repr

/-- Scan a fragment for the first word-boundary occurrence of keyword `k1`
or `k2`; returns the text before the keyword and, on a hit, the remainder
after the keyword with leading whitespace dropped.  `atB` records whether
the scan currently sits at a word boundary. -/
def scanTwoKws (k1 k2 : List Char) : List Char → Bool → List Char × KwHit
  | [], _ => ([], .noHit)
  | c :: rest, atB =>
    if atB then
      match isKw k1 (c :: rest) with
      | some after => ([], .first (skipSpaces after))
      | none =>
        match isKw k2 (c :: rest) with
        | some after => ([], .second (skipSpaces after))
        | none =>
          let s := scanTwoKws k1 k2 rest (isSpaceChar c)
          (c :: s.1, s.2)
    else
      let s := scanTwoKws k1 k2 rest (isSpaceChar c)
      (c :: s.1, s.2)

/-- A table reference: its raw source text, the optional schema qualifier
(empty when unqualified) and the bare table name. -/
structure TableRef where
  raw : List Char
  schema : List Char
  name : List Char
deriving DecidableEq, Repr

/-- Split a qualified name at its first dot. -/
def splitDot (cs : List Char) : List Char × List Char :=
  if cs.contains '.' then
    (cs.takeWhile (fun c => c ≠ '.'), (cs.dropWhile (fun c => c ≠ '.')).drop 1)
  else ([], cs)

/-- Build a `TableRef` from its raw source text (alias text, if any,
follows the first word and is kept only in `raw`). -/
def mkTableRef (raw : List Char) : TableRef :=
  let base := takeWord raw
  let sn := splitDot base
  { raw := raw, schema := sn.1, name := sn.2 }

/-- Split a fragment at commas (list of table references). -/
def splitCommas : List Char → List (List Char)
  | [] => [[]]
  | c :: rest =>
    if c = ',' then [] :: splitCommas rest
    else
      match splitCommas rest with
      | [] => [[c]]
      | s :: ss => (c :: s) :: ss

/-- Parse a comma-separated auxiliary table list; fails when the list or
any of its items is empty. -/
def parseRefList (cs : List Char) : Option (List TableRef) :=
  let parts := (splitCommas cs).map trimChars
  if parts.any (fun p => p = []) then none
  else some (parts.map mkTableRef)

/-- The two backup-eligible DML kinds. -/
inductive DmlKind
  | delete
  | update
deriving DecidableEq, Repr

/-- Normalized DML descriptor: kind, primary table, ordered auxiliary
tables and the verbatim filter text (empty when there is no WHERE). -/
structure DmlDescriptor where
  kind : DmlKind
  primary : TableRef
  auxiliary : List TableRef
  filter : List Char
deriving DecidableEq, Repr

/-- Outcome of the dialect grammar adapter on one statement. -/
inductive AnalyzeResult
  | descriptor (d : DmlDescriptor)
  | notApplicable
  | parseFailure
deriving DecidableEq, Repr

/-- Assemble a descriptor whose auxiliary list comes from a raw
USING/FROM fragment. -/
def mkDescWithAux (kind : DmlKind) (primaryRaw auxText filter : List Char) :
    AnalyzeResult :=
  match parseRefList auxText with
  | some auxRefs => .descriptor ⟨kind, mkTableRef primaryRaw, auxRefs, filter⟩
  | none => .parseFailure

/-- Parse the tail of a DELETE statement after `DELETE FROM`
(primary table, optional USING list, optional WHERE filter). -/
def parseDeleteTail (cs : List Char) : AnalyzeResult :=
  if takeWord cs = [] then .parseFailure
  else
    match (scanTwoKws kwUSING kwWHERE (dropWord cs) true).2 with
    | .first afterUsing =>
      if trimChars (scanTwoKws kwUSING kwWHERE (dropWord cs) true).1 = [] then
        match (scanTwoKws kwWHERE kwWHERE afterUsing true).2 with
        | .first afterWhere =>
          mkDescWithAux .delete (takeWord cs)
            (scanTwoKws kwWHERE kwWHERE afterUsing true).1 afterWhere
        | .second afterWhere =>
          mkDescWithAux .delete (takeWord cs)
            (scanTwoKws kwWHERE kwWHERE afterUsing true).1 afterWhere
        | .noHit =>
          mkDescWithAux .delete (takeWord cs)
            (scanTwoKws kwWHERE kwWHERE afterUsing true).1 []
      else .parseFailure
    | .second afterWhere =>
      if trimChars (scanTwoKws kwUSING kwWHERE (dropWord cs) true).1 = [] then
        .descriptor ⟨.delete, mkTableRef (takeWord cs), [], afterWhere⟩
      else .parseFailure
    | .noHit =>
      if trimChars (scanTwoKws kwUSING kwWHERE (dropWord cs) true).1 = [] then
        .descriptor ⟨.delete, mkTableRef (takeWord cs), [], []⟩
      else .parseFailure

/-- Parse the tail of an UPDATE statement after `UPDATE` (primary table,
mandatory SET clause whose assignments are discarded, optional FROM list,
optional WHERE filter). -/
def parseUpdateTail (cs : List Char) : AnalyzeResult :=
  if takeWord cs = [] then .parseFailure
  else
    match isKw kwSET (skipSpaces (dropWord cs)) with
    | none => .parseFailure
    | some afterSet =>
      match (scanTwoKws kwFROM kwWHERE (skipSpaces afterSet) true).2 with
      | .first afterFrom =>
        match (scanTwoKws kwWHERE kwWHERE afterFrom true).2 with
        | .first afterWhere =>
          mkDescWithAux .update (takeWord cs)
            (scanTwoKws kwWHERE kwWHERE afterFrom true).1 afterWhere
        | .second afterWhere =>
          mkDescWithAux .update (takeWord cs)
            (scanTwoKws kwWHERE kwWHERE afterFrom true).1 afterWhere
        | .noHit =>
          mkDescWithAux .update (takeWord cs)
            (scanTwoKws kwWHERE kwWHERE afterFrom true).1 []
      | .second afterWhere =>
        .descriptor ⟨.update, mkTableRef (takeWord cs), [], afterWhere⟩
      | .noHit =>
        .descriptor ⟨.update, mkTableRef (takeWord cs), [], []⟩

/-- Modelled from the spec: the dialect grammar adapter
`analyze(statementText) -> DmlDescriptor | NotApplicable` (spec §4.2):
recognizes the four backup-eligible DELETE/UPDATE shapes, is permissive
about whitespace and keyword case, discards SET assignments, copies the
filter verbatim, answers `notApplicable` for any other statement kind and
`parseFailure` for a malformed DELETE/UPDATE. -/
def analyze (text : List Char) : AnalyzeResult :=
  match isKw kwDELETE (skipSpaces text) with
  | some rest =>
    match isKw kwFROM (skipSpaces rest) with
    | some rest2 => parseDeleteTail (skipSpaces rest2)
    | none => .parseFailure
  | none =>
    match isKw kwUPDATE (skipSpaces text) with
    | some rest => parseUpdateTail (skipSpaces rest)
    | none => .notApplicable

/-! ## Backup naming, quoting and statement synthesis -/

/-- Identifier quoting styles of the supported dialect families
(spec §4.3): double quotes for ANSI-compliant dialects, back-ticks for the
MySQL family, brackets for others. -/
inductive Dialect
  | ansi
  | backtick
  | bracket
deriving DecidableEq, Repr

/-- Dialect-specific identifier quoting. -/
def quoteIdentifier (d : Dialect) (s : List Char) : List Char :=
  match d with
  | .ansi => '"' :: (s ++ ['"'])
  | .backtick => Char.ofNat 96 :: (s ++ [Char.ofNat 96])
  | .bracket => '[' :: (s ++ [']'])

/-- The backup table name issued for index `i` and source table `src`:
`rollback_<index>_<sourceTableName>`. -/
def rollbackTableName (i : Nat) (src : String) : String :=
  "rollback_" ++ Nat.repr i ++ "_" ++ src

/-- The FROM-list of the synthesized SELECT: the primary table's textual
reference followed by each auxiliary table's textual reference, in
original order, exactly as they appeared in source. -/
def fromListText (desc : DmlDescriptor) : List Char :=
  desc.primary.raw ++ (desc.auxiliary.map (fun a => ',' :: ' ' :: a.raw)).flatten

/-- The filter-independent prefix of the synthesized statement:
`CREATE TABLE <quoted backupSchema>.<quoted target table> AS SELECT
<quoted primary name>.* FROM <from-list>`. -/
def synthesizePrefixText (d : Dialect) (backupSchema targetName : String)
    (desc : DmlDescriptor) : List Char :=
  "CREATE TABLE ".data ++ quoteIdentifier d backupSchema.data
    ++ '.' :: quoteIdentifier d targetName.data
    ++ " AS SELECT ".data ++ quoteIdentifier d desc.primary.name
    ++ ".* FROM ".data ++ fromListText desc

/-- Modelled from the spec: the statement synthesizer's assembly step
(spec §4.4): `CREATE TABLE <quoted backupSchema>.<quoted target table> AS
SELECT <quoted primary name>.* FROM <from-list> [WHERE <filter text>]`. -/
def synthesizeText (d : Dialect) (backupSchema targetName : String)
    (desc : DmlDescriptor) : List Char :=
  synthesizePrefixText d backupSchema targetName desc
    ++ (if desc.filter = [] then [] else " WHERE ".data ++ desc.filter)
    ++ [';']

/-- One transform result record, as exposed to the caller
(`base.TransformDMLToSelectResult`). -/
structure TransformResult where
  statement : String
  sourceSchema : String
  sourceTableName : String
  targetTableName : String
  startPosition : Position
  endPosition : Position
deriving DecidableEq, Repr

/-- Synthesize the transform result for one eligible statement at backup
index `idx`. -/
def mkResult (d : Dialect) (backupSchema : String) (idx : Nat)
    (st : RawStatement) (desc : DmlDescriptor) : TransformResult :=
  let src := String.mk desc.primary.name
  let tgt := rollbackTableName idx src
  { statement := String.mk (synthesizeText d backupSchema tgt desc)
  , sourceSchema := String.mk desc.primary.schema
  , sourceTableName := src
  , targetTableName := tgt
  , startPosition := st.startPosition
  , endPosition := st.endPosition }

/-- A per-statement parse failure: the statement's 1-based ordinal and its
span. -/
structure ParseFailureRec where
  ordinal : Nat
  startPosition : Position
  endPosition : Position
deriving DecidableEq, Repr

/-- Modelled from the spec: the per-invocation transformation loop.  It
walks the statements in script order threading the naming context's index
`idx` (advanced only by eligible statements) and the 1-based statement
ordinal `ord`; eligible statements synthesize one result each,
non-applicable statements are skipped silently, and per-statement parse
failures are collected alongside the results without aborting the
remaining statements (spec §4.2, §7). -/
def transformGo (d : Dialect) (backupSchema : String) :
    List RawStatement → Nat → Nat → List TransformResult × List ParseFailureRec
  | [], _, _ => ([], [])
  | st :: rest, idx, ord =>
    match analyze st.text with
    | .descriptor desc =>
      let tail := transformGo d backupSchema rest (idx + 1) (ord + 1)
      (mkResult d backupSchema idx st desc :: tail.1, tail.2)
    | .notApplicable => transformGo d backupSchema rest idx (ord + 1)
    | .parseFailure =>
      let tail := transformGo d backupSchema rest idx (ord + 1)
      (tail.1, ⟨ord, st.startPosition, st.endPosition⟩ :: tail.2)

/-- Modelled from the spec: `base.TransformDMLToSelect` is not under src/;
one invocation of the transformation engine on a script: split, then
transform each statement in order with a fresh naming context whose index
starts at 0 (spec §2, §4.3). -/
def transformDMLToSelect (d : Dialect) (backupSchema : String) (script : String) :
    Except SplitError (List TransformResult × List ParseFailureRec) :=
  match splitScript script with
  | .ok stmts => .ok (transformGo d backupSchema stmts 0 1)
  | .error e => .error e

/-! ## Span extraction and auxiliary predicates -/

/-- Boolean comparison of positions (line-major lexicographic order). -/
def posLE (a b : Position) : Bool :=
  a.line < b.line || (a.line = b.line && a.column ≤ b.column)

/-- Strict line-major lexicographic order on positions. -/
def posLT (a b : Position) : Prop :=
  a.line < b.line ∨ (a.line = b.line ∧ a.column < b.column)

/-- The characters of a script whose position lies in the inclusive span
`[a, b]`, in script order. -/
def extractSpan (s : String) (a b : Position) : List Char :=
  ((annotate s.data ⟨1, 0⟩).filter (fun cp => posLE a cp.2 && posLE cp.2 b)).map Prod.fst

/-- `containsSub pat cs` holds when `pat` occurs as a contiguous substring
of `cs`. -/
def containsSub (pat : List Char) : List Char → Bool
  | [] => pat.isEmpty
  | c :: rest => pat.isPrefixOf (c :: rest) || containsSub pat rest

/-- A statement is backup-eligible when the grammar adapter recognizes it. -/
def isEligible (st : RawStatement) : Bool :=
  match analyze st.text with
  | .descriptor _ => true
  | .notApplicable => false
  | .parseFailure => false

/-- Number of backup-eligible statements (the amount by which a statement
run advances the naming index). -/
def eligCount (stmts : List RawStatement) : Nat :=
  stmts.countP isEligible

/-- Two successive invocations of the transformation engine on the same
script: each invocation constructs its own naming context (the index lives
inside `transformDMLToSelect` and starts at 0), so no state crosses from
the first invocation to the second. -/
def runTwice (d : Dialect) (backupSchema : String) (script : String) :
    (Except SplitError (List TransformResult × List ParseFailureRec)) ×
    (Except SplitError (List TransformResult × List ParseFailureRec)) :=
  (transformDMLToSelect d backupSchema script,
   transformDMLToSelect d backupSchema script)

/-! ## Schematic statement shapes

The backup-eligible shapes of spec §4.2 are quantified schematically: a
table identifier is any non-empty run of word characters, an assignment
token any non-empty run of non-space characters, and the filter text is
arbitrary. -/

/-- A plain identifier: non-empty and made of word characters only. -/
def plainWord (w : List Char) : Prop :=
  w ≠ [] ∧ ∀ c ∈ w, isWordChar c = true

/-- An assignment token: non-empty and free of whitespace. -/
def nonSpaceToken (w : List Char) : Prop :=
  w ≠ [] ∧ ∀ c ∈ w, isSpaceChar c = false

instance decidablePlainWord (w : List Char) : Decidable (plainWord w) :=
  inferInstanceAs (Decidable (w ≠ [] ∧ ∀ c ∈ w, isWordChar c = true))

instance decidableNonSpaceToken (w : List Char) : Decidable (nonSpaceToken w) :=
  inferInstanceAs (Decidable (w ≠ [] ∧ ∀ c ∈ w, isSpaceChar c = false))

/-- Comma-separated rendering of a table list (`a1, a2, ...`). -/
def commaJoin : List (List Char) → List Char
  | [] => []
  | [a] => a
  | a :: rest => a ++ ',' :: ' ' :: commaJoin rest

/-- Space-separated rendering of an assignment token run. -/
def spaceJoin : List (List Char) → List Char
  | [] => []
  | [a] => a
  | a :: rest => a ++ ' ' :: spaceJoin rest

/-- The schematic statement `DELETE FROM T USING a1, a2, ... WHERE cond`. -/
def deleteUsingStatement (T : List Char) (auxs : List (List Char))
    (cond : List Char) : List Char :=
  "DELETE FROM ".data ++
    (T ++ (' ' :: (kwUSING ++ (' ' ::
      (commaJoin auxs ++ (' ' :: (kwWHERE ++ (' ' :: cond))))))))

/-- The schematic statement
`UPDATE T SET tok1 tok2 ... FROM a1, a2, ... WHERE cond`. -/
def updateFromStatement (T : List Char) (ts auxs : List (List Char))
    (cond : List Char) : List Char :=
  "UPDATE ".data ++
    (T ++ (' ' :: (kwSET ++ (' ' ::
      (spaceJoin ts ++ (' ' :: (kwFROM ++ (' ' ::
        (commaJoin auxs ++ (' ' :: (kwWHERE ++ (' ' :: cond))))))))))))

/-! ## The `backupData` orchestration
(`backend/runner/taskrun/data_update_executor.go`)

`backupData` is embedded over an environment of collaborator outcomes
(store lookups, drivers, the transformation call, per-statement execution
and issue-comment creation); its control flow follows the Go function
line by line. -/

/-- `storepb.PreUpdateBackupDetail`: the backup-destination database name. -/
structure PreUpdateBackupDetail where
  database : String
deriving DecidableEq, Repr

/-- `storepb.TaskDatabaseUpdatePayload`, restricted to the field
`backupData` consults. -/
structure TaskDatabaseUpdatePayload where
  preUpdateBackupDetail : Option PreUpdateBackupDetail
deriving DecidableEq, Repr

/-- The engines `backupData` distinguishes. -/
inductive Engine
  | POSTGRES
  | MYSQL
  | TIDB
  | MSSQL
  | ORACLE
  | OTHER
deriving DecidableEq, Repr

/-- `store.InstanceMessage`, restricted to its engine. -/
structure InstanceMessage where
  engine : Engine
deriving DecidableEq, Repr

/-- `store.IssueMessage`, restricted to its UID. -/
structure IssueMessage where
  uid : Nat
deriving DecidableEq, Repr

/-- `storepb.PriorBackupDetail_Item_Table`. -/
structure BackupItemTable where
  database : String
  schema : String
  table : String
deriving DecidableEq, Repr

/-- `storepb.PriorBackupDetail_Item`. -/
structure PriorBackupDetailItem where
  sourceTable : BackupItemTable
  targetTable : BackupItemTable
  startPosition : Position
  endPosition : Position
deriving DecidableEq, Repr

/-- `storepb.PriorBackupDetail`. -/
structure PriorBackupDetail where
  items : List PriorBackupDetailItem
deriving DecidableEq, Repr

/-- The fatal error exits of `backupData`, in source order. -/
inductive BackupError
  | instanceLookup
  | databaseLookup
  | issueLookup
  | issueNotFound
  | parseBackupDatabase
  | backupDatabaseLookup
  | backupDatabaseNotFound
  | backupDriver
  | driver
  | transformFailed
  | executeFailed (i : Nat)
  | setCommentFailed (i : Nat)
deriving DecidableEq, Repr

/-- Outcomes of the external collaborators `backupData` calls, indexed per
transformed statement where applicable.  `createIssueCommentOk` and
`syncOk` are consulted only for logging in the Go code. -/
structure TaskEnv where
  instanceRes : Option InstanceMessage
  databaseOk : Bool
  sourceDatabaseName : String
  issueRes : Option (Option IssueMessage)
  parseTargetOk : Bool
  backupDatabaseRes : Option (Option Unit)
  backupDriverOk : Bool
  driverOk : Bool
  transformRes : Option (List TransformResult)
  executeOk : Nat → Bool
  setCommentOk : Nat → Bool
  createIssueCommentOk : Nat → Bool
  syncOk : Bool

/-- The engines for which `backupData` tags the backup table with an issue
comment/extended property after executing the backup statement. -/
def setsTableComment : Engine → Bool
  | .TIDB => true
  | .MYSQL => true
  | .MSSQL => true
  | .POSTGRES => true
  | .ORACLE => true
  | .OTHER => false

/-- The prior-backup item recorded for one transformed statement
(lines 182-194 of `data_update_executor.go`): source/target tables plus
the originating statement's span. -/
def mkLoopItem (sourceDatabaseName targetDatabaseName : String)
    (st : TransformResult) : PriorBackupDetailItem :=
  { sourceTable := ⟨sourceDatabaseName, "", st.sourceTableName⟩
  , targetTable := ⟨targetDatabaseName, "", st.targetTableName⟩
  , startPosition := st.startPosition
  , endPosition := st.endPosition }

/-- The per-statement loop of `backupData` (lines 155-215 of
`data_update_executor.go`): execute the synthesized backup statement
(fatal on failure), set the engine-specific table comment (fatal on
failure), append the prior-backup item, then create the issue comment —
whose failure is only logged (`slog.Warn`) and is therefore ignored
here. -/
def backupLoop (env : TaskEnv) (engine : Engine)
    (sourceDatabaseName targetDatabaseName : String) :
    Nat → List TransformResult → List PriorBackupDetailItem →
    Except BackupError (Option PriorBackupDetail)
  | _, [], items => .ok (some ⟨items.reverse⟩)
  | i, st :: rest, items =>
    if !env.executeOk i then .error (.executeFailed i)
    else if setsTableComment engine && !env.setCommentOk i then
      .error (.setCommentFailed i)
    else
      backupLoop env engine sourceDatabaseName targetDatabaseName (i + 1) rest
        (mkLoopItem sourceDatabaseName targetDatabaseName st :: items)

/-- `backupData` (lines 76-234 of `data_update_executor.go`): skip
silently when the payload carries no backup detail or an empty database;
otherwise perform the lookups, obtain drivers (the backup database and its
driver only for non-Postgres engines), transform the DML (any error is
fatal), and run the per-statement loop.  The final schema sync only logs
its errors and does not affect the result. -/
def backupData (env : TaskEnv) (payload : TaskDatabaseUpdatePayload) :
    Except BackupError (Option PriorBackupDetail) :=
  match payload.preUpdateBackupDetail with
  | none => .ok none
  | some detail =>
    if detail.database = "" then .ok none
    else
      match env.instanceRes with
      | none => .error .instanceLookup
      | some inst =>
        if !env.databaseOk then .error .databaseLookup
        else
          match env.issueRes with
          | none => .error .issueLookup
          | some none => .error .issueNotFound
          | some (some _) =>
            if !env.parseTargetOk then .error .parseBackupDatabase
            else
              let nonPG : Option BackupError :=
                if inst.engine ≠ Engine.POSTGRES then
                  match env.backupDatabaseRes with
                  | none => some .backupDatabaseLookup
                  | some none => some .backupDatabaseNotFound
                  | some (some _) =>
                    if !env.backupDriverOk then some .backupDriver else none
                else none
              match nonPG with
              | some e => .error e
              | none =>
                if !env.driverOk then .error .driver
                else
                  match env.transformRes with
                  | none => .error .transformFailed
                  | some stmts =>
                    backupLoop env inst.engine env.sourceDatabaseName
                      detail.database 0 stmts []

/-- The collaborator outcomes under which `backupData` reaches its
per-statement loop: backup detail present with a non-empty database, all
lookups succeed, both drivers are obtained and the transformation returns
`stmts`. -/
def reachesLoop (env : TaskEnv) (payload : TaskDatabaseUpdatePayload)
    (detail : PreUpdateBackupDetail) (inst : InstanceMessage)
    (stmts : List TransformResult) : Prop :=
  payload.preUpdateBackupDetail = some detail ∧
  detail.database ≠ "" ∧
  env.instanceRes = some inst ∧
  env.databaseOk = true ∧
  (∃ issue, env.issueRes = some (some issue)) ∧
  env.parseTargetOk = true ∧
  env.backupDatabaseRes = some (some ()) ∧
  env.backupDriverOk = true ∧
  env.driverOk = true ∧
  env.transformRes = some stmts

/-! ## Claim theorems -/

/-- C1: for the single-statement script `DELETE FROM t WHERE c1 = 1;` the
transformation produces exactly one TransformResult whose statement text is
`CREATE TABLE "backupSchema"."rollback_0_t" AS SELECT "t".* FROM t WHERE
c1 = 1;`, with source table `t`, empty source schema and target table
`rollback_0_t`. -/
theorem c1_single_delete_transform :
    transformDMLToSelect .ansi "backupSchema" "DELETE FROM t WHERE c1 = 1;" =
      .ok ([{ statement := "CREATE TABLE \"backupSchema\".\"rollback_0_t\" AS SELECT \"t\".* FROM t WHERE c1 = 1;"
            , sourceSchema := ""
            , sourceTableName := "t"
            , targetTableName := "rollback_0_t"
            , startPosition := ⟨1, 0⟩
            , endPosition := ⟨1, 25⟩ }], []) := rfl

/-- C2 counterexample: on the fixture script `DELETE FROM t USING test
WHERE t.c1 = 1 and t.a1 = test.a1;` the splitter records the end position
⟨3, 31⟩, the start of the last token `a1`, not the last significant
character (the final `1` at ⟨3, 32⟩): extracting the recorded inclusive
span does not reproduce the statement's significant text. -/
theorem c2_span_roundTrip_counterexample :
    splitScript "DELETE FROM t\nUSING test\nWHERE t.c1 = 1 and t.a1 = test.a1;" =
      .ok [{ text := "DELETE FROM t\nUSING test\nWHERE t.c1 = 1 and t.a1 = test.a1".data
           , startPosition := ⟨1, 0⟩
           , endPosition := ⟨3, 31⟩ }] ∧
    extractSpan "DELETE FROM t\nUSING test\nWHERE t.c1 = 1 and t.a1 = test.a1;"
        ⟨1, 0⟩ ⟨3, 31⟩ ≠
      "DELETE FROM t\nUSING test\nWHERE t.c1 = 1 and t.a1 = test.a1".data :=
  ⟨rfl, by decide⟩


/-- Unfolding: the results of a run starting at an eligible statement. -/
theorem transformGo_desc_fst (d : Dialect) (sch : String) (st : RawStatement)
    (l : List RawStatement) (k o : Nat) (desc : DmlDescriptor)
    (h : analyze st.text = .descriptor desc) :
    (transformGo d sch (st :: l) k o).1 =
      mkResult d sch k st desc :: (transformGo d sch l (k + 1) (o + 1)).1 := by
  simp [transformGo, h]

/-- Unfolding: the failures of a run starting at an eligible statement. -/
theorem transformGo_desc_snd (d : Dialect) (sch : String) (st : RawStatement)
    (l : List RawStatement) (k o : Nat) (desc : DmlDescriptor)
    (h : analyze st.text = .descriptor desc) :
    (transformGo d sch (st :: l) k o).2 = (transformGo d sch l (k + 1) (o + 1)).2 := by
  simp [transformGo, h]

/-- Unfolding: a non-applicable statement is skipped without consuming a
naming index. -/
theorem transformGo_na (d : Dialect) (sch : String) (st : RawStatement)
    (l : List RawStatement) (k o : Nat)
    (h : analyze st.text = .notApplicable) :
    transformGo d sch (st :: l) k o = transformGo d sch l k (o + 1) := by
  simp [transformGo, h]

/-- Unfolding: the results of a run starting at an unparseable statement. -/
theorem transformGo_pf_fst (d : Dialect) (sch : String) (st : RawStatement)
    (l : List RawStatement) (k o : Nat)
    (h : analyze st.text = .parseFailure) :
    (transformGo d sch (st :: l) k o).1 = (transformGo d sch l k (o + 1)).1 := by
  simp [transformGo, h]

/-- Unfolding: the failures of a run starting at an unparseable statement. -/
theorem transformGo_pf_snd (d : Dialect) (sch : String) (st : RawStatement)
    (l : List RawStatement) (k o : Nat)
    (h : analyze st.text = .parseFailure) :
    (transformGo d sch (st :: l) k o).2 =
      ⟨o, st.startPosition, st.endPosition⟩ :: (transformGo d sch l k (o + 1)).2 := by
  simp [transformGo, h]

/-- An eligible statement advances the eligible-statement count by one. -/
theorem eligCount_cons_true (st : RawStatement) (l : List RawStatement)
    (h : isEligible st = true) :
    eligCount (st :: l) = eligCount l + 1 := by
  simp [eligCount, List.countP_cons, h]

/-- A non-eligible statement leaves the eligible-statement count unchanged. -/
theorem eligCount_cons_false (st : RawStatement) (l : List RawStatement)
    (h : isEligible st = false) :
    eligCount (st :: l) = eligCount l := by
  simp [eligCount, List.countP_cons, h]

/-- The result list of the transformation loop distributes over appended
statement runs: the second run continues with the naming index advanced by
the number of eligible statements of the first run and the ordinal
advanced by its length. -/
theorem transformGo_append_fst (d : Dialect) (sch : String)
    (xs ys : List RawStatement) (k o : Nat) :
    (transformGo d sch (xs ++ ys) k o).1 =
      (transformGo d sch xs k o).1 ++
        (transformGo d sch ys (k + eligCount xs) (o + xs.length)).1 := by
  induction xs generalizing k o with
  | nil => simp [transformGo, eligCount]
  | cons st rest ih =>
    cases h : analyze st.text with
    | descriptor desc =>
      have helig : isEligible st = true := by simp [isEligible, h]
      have e1 : k + eligCount (st :: rest) = k + 1 + eligCount rest := by
        rw [eligCount_cons_true st rest helig]; omega
      have e2 : o + (st :: rest).length = o + 1 + rest.length := by
        rw [List.length_cons]; omega
      rw [List.cons_append, transformGo_desc_fst d sch st (rest ++ ys) k o desc h,
        transformGo_desc_fst d sch st rest k o desc h, ih (k + 1) (o + 1),
        e1, e2, List.cons_append]
    | notApplicable =>
      have helig : isEligible st = false := by simp [isEligible, h]
      have e1 : k + eligCount (st :: rest) = k + eligCount rest := by
        rw [eligCount_cons_false st rest helig]
      have e2 : o + (st :: rest).length = o + 1 + rest.length := by
        rw [List.length_cons]; omega
      rw [List.cons_append, transformGo_na d sch st (rest ++ ys) k o h,
        transformGo_na d sch st rest k o h, ih k (o + 1), e1, e2]
    | parseFailure =>
      have helig : isEligible st = false := by simp [isEligible, h]
      have e1 : k + eligCount (st :: rest) = k + eligCount rest := by
        rw [eligCount_cons_false st rest helig]
      have e2 : o + (st :: rest).length = o + 1 + rest.length := by
        rw [List.length_cons]; omega
      rw [List.cons_append, transformGo_pf_fst d sch st (rest ++ ys) k o h,
        transformGo_pf_fst d sch st rest k o h, ih k (o + 1), e1, e2]

/-- The failure list of the transformation loop distributes over appended
statement runs in the same way. -/
theorem transformGo_append_snd (d : Dialect) (sch : String)
    (xs ys : List RawStatement) (k o : Nat) :
    (transformGo d sch (xs ++ ys) k o).2 =
      (transformGo d sch xs k o).2 ++
        (transformGo d sch ys (k + eligCount xs) (o + xs.length)).2 := by
  induction xs generalizing k o with
  | nil => simp [transformGo, eligCount]
  | cons st rest ih =>
    cases h : analyze st.text with
    | descriptor desc =>
      have helig : isEligible st = true := by simp [isEligible, h]
      have e1 : k + eligCount (st :: rest) = k + 1 + eligCount rest := by
        rw [eligCount_cons_true st rest helig]; omega
      have e2 : o + (st :: rest).length = o + 1 + rest.length := by
        rw [List.length_cons]; omega
      rw [List.cons_append, transformGo_desc_snd d sch st (rest ++ ys) k o desc h,
        transformGo_desc_snd d sch st rest k o desc h, ih (k + 1) (o + 1), e1, e2]
    | notApplicable =>
      have helig : isEligible st = false := by simp [isEligible, h]
      have e1 : k + eligCount (st :: rest) = k + eligCount rest := by
        rw [eligCount_cons_false st rest helig]
      have e2 : o + (st :: rest).length = o + 1 + rest.length := by
        rw [List.length_cons]; omega
      rw [List.cons_append, transformGo_na d sch st (rest ++ ys) k o h,
        transformGo_na d sch st rest k o h, ih k (o + 1), e1, e2]
    | parseFailure =>
      have helig : isEligible st = false := by simp [isEligible, h]
      have e1 : k + eligCount (st :: rest) = k + eligCount rest := by
        rw [eligCount_cons_false st rest helig]
      have e2 : o + (st :: rest).length = o + 1 + rest.length := by
        rw [List.length_cons]; omega
      rw [List.cons_append, transformGo_pf_snd d sch st (rest ++ ys) k o h,
        transformGo_pf_snd d sch st rest k o h, ih k (o + 1), e1, e2,
        List.cons_append]

/-- On a run of eligible statements the loop produces one result per
statement, no failures, and the `i`-th result's target table name embeds
the index `k + i`. -/
theorem transformGo_names (d : Dialect) (sch : String) (stmts : List RawStatement)
    (k o : Nat) (he : ∀ st ∈ stmts, isEligible st = true) :
    (transformGo d sch stmts k o).1.length = stmts.length ∧
    (transformGo d sch stmts k o).2 = [] ∧
    ∀ i (hi : i < (transformGo d sch stmts k o).1.length),
      ((transformGo d sch stmts k o).1[i]).targetTableName =
        rollbackTableName (k + i)
          (((transformGo d sch stmts k o).1[i]).sourceTableName) := by
  induction stmts generalizing k o with
  | nil => simp [transformGo]
  | cons st rest ih =>
    have hst : isEligible st = true := he st (List.mem_cons_self st rest)
    have hrest : ∀ s ∈ rest, isEligible s = true :=
      fun s hs => he s (List.mem_cons_of_mem st hs)
    cases h : analyze st.text with
    | descriptor desc =>
      obtain ⟨ihl, ihf, ihn⟩ := ih (k + 1) (o + 1) hrest
      have hL := transformGo_desc_fst d sch st rest k o desc h
      refine ⟨?_, ?_, ?_⟩
      · rw [hL, List.length_cons, ihl, List.length_cons]
      · rw [transformGo_desc_snd d sch st rest k o desc h, ihf]
      · intro i hi
        cases i with
        | zero =>
          simp only [hL, List.getElem_cons_zero]
          simp [mkResult]
        | succ j =>
          have hj : j < (transformGo d sch rest (k + 1) (o + 1)).1.length := by
            have hi2 := hi
            rw [hL, List.length_cons] at hi2
            omega
          have hv := ihn j hj
          have harith : k + 1 + j = k + (j + 1) := by omega
          rw [harith] at hv
          simp only [hL, List.getElem_cons_succ]
          exact hv
    | notApplicable => simp [isEligible, h] at hst
    | parseFailure => simp [isEligible, h] at hst

/-- The first result of any transformation run carries the index the run
was started with. -/
theorem transformGo_head_index (d : Dialect) (sch : String)
    (stmts : List RawStatement) (k : Nat) :
    ∀ (o : Nat) (r : TransformResult) (rs : List TransformResult)
      (fs : List ParseFailureRec),
      transformGo d sch stmts k o = (r :: rs, fs) →
      r.targetTableName = rollbackTableName k r.sourceTableName := by
  induction stmts with
  | nil =>
    intro o r rs fs h
    simp [transformGo] at h
  | cons st rest ih =>
    intro o r rs fs h
    cases ha : analyze st.text with
    | descriptor desc =>
      have h1 : (transformGo d sch (st :: rest) k o).1 = r :: rs := by rw [h]
      rw [transformGo_desc_fst d sch st rest k o desc ha] at h1
      have hr : mkResult d sch k st desc = r := (List.cons.injEq _ _ _ _).mp h1 |>.1
      rw [← hr]
      rfl
    | notApplicable =>
      rw [transformGo_na d sch st rest k o ha] at h
      exact ih (o + 1) r rs fs h
    | parseFailure =>
      have h1 : (transformGo d sch (st :: rest) k o).1 = r :: rs := by rw [h]
      rw [transformGo_pf_fst d sch st rest k o ha] at h1
      exact ih (o + 1) r rs (transformGo d sch rest k (o + 1)).2 (by rw [← h1])

/-- C3: on a script whose statements are all backup-eligible, the
transformation yields exactly one result per statement and no failures,
and the target table names embed the indices `0..n-1` in script order. -/
theorem c3_eligible_script_indices (d : Dialect) (sch : String) (s : String)
    (stmts : List RawStatement) (hs : splitScript s = .ok stmts)
    (he : ∀ st ∈ stmts, isEligible st = true) :
    ∃ rs : List TransformResult,
      transformDMLToSelect d sch s = .ok (rs, []) ∧
      rs.length = stmts.length ∧
      ∀ i (hi : i < rs.length),
        (rs[i]).targetTableName =
          rollbackTableName i ((rs[i]).sourceTableName) := by
  obtain ⟨hl, hf, hn⟩ := transformGo_names d sch stmts 0 1 he
  refine ⟨(transformGo d sch stmts 0 1).1, ?_, hl, ?_⟩
  · simp only [transformDMLToSelect, hs]
    rw [← hf]
  · intro i hi
    have := hn i hi
    simpa using this

/-- C3 witness: the two-statement fixture script on table `test` receives
one result per statement with target names embedding indices 0 and 1. -/
theorem c3_eligible_script_indices_witness :
    ∃ rs : List TransformResult,
      transformDMLToSelect .ansi "backupSchema"
          "DELETE FROM test WHERE c1 = 1;\nUPDATE test SET test.c1 = 2 WHERE test.c1 = 1;" =
        .ok (rs, []) ∧
      rs.length = ([{ text := "DELETE FROM test WHERE c1 = 1".data
                    , startPosition := (⟨1, 0⟩ : Position)
                    , endPosition := (⟨1, 28⟩ : Position) }
                  , { text := "UPDATE test SET test.c1 = 2 WHERE test.c1 = 1".data
                    , startPosition := (⟨2, 0⟩ : Position)
                    , endPosition := (⟨2, 44⟩ : Position) }] : List RawStatement).length ∧
      ∀ i (hi : i < rs.length),
        (rs[i]).targetTableName =
          rollbackTableName i ((rs[i]).sourceTableName) :=
  c3_eligible_script_indices .ansi "backupSchema"
    "DELETE FROM test WHERE c1 = 1;\nUPDATE test SET test.c1 = 2 WHERE test.c1 = 1;"
    [{ text := "DELETE FROM test WHERE c1 = 1".data
     , startPosition := (⟨1, 0⟩ : Position)
     , endPosition := (⟨1, 28⟩ : Position) }
    , { text := "UPDATE test SET test.c1 = 2 WHERE test.c1 = 1".data
      , startPosition := (⟨2, 0⟩ : Position)
      , endPosition := (⟨2, 44⟩ : Position) }] rfl (by decide)

/-- C4: the transformation is a pure function of script and dialect: two
successive invocations (each constructing a fresh naming context) return
identical result sequences, and the first result of any invocation embeds
index 0. -/
theorem c4_pure_invocation_restart (d : Dialect) (sch : String) (s : String)
    (r : TransformResult) (rs : List TransformResult) (fs : List ParseFailureRec)
    (h : transformDMLToSelect d sch s = .ok (r :: rs, fs)) :
    (runTwice d sch s).1 = (runTwice d sch s).2 ∧
    r.targetTableName = rollbackTableName 0 r.sourceTableName := by
  refine ⟨rfl, ?_⟩
  cases hsp : splitScript s with
  | ok stmts =>
    simp only [transformDMLToSelect, hsp] at h
    have h' : transformGo d sch stmts 0 1 = (r :: rs, fs) := by
      injection h
    exact transformGo_head_index d sch stmts 0 1 r rs fs h'
  | error e =>
    simp only [transformDMLToSelect, hsp] at h
    cases h

/-- C4 witness: the single-statement fixture, invoked twice, with the
first result's target embedding index 0. -/
theorem c4_pure_invocation_restart_witness :
    (runTwice .ansi "backupSchema" "DELETE FROM test WHERE c1 = 1;").1 =
      (runTwice .ansi "backupSchema" "DELETE FROM test WHERE c1 = 1;").2 ∧
    ({ statement := "CREATE TABLE \"backupSchema\".\"rollback_0_test\" AS SELECT \"test\".* FROM test WHERE c1 = 1;"
     , sourceSchema := ""
     , sourceTableName := "test"
     , targetTableName := "rollback_0_test"
     , startPosition := (⟨1, 0⟩ : Position)
     , endPosition := (⟨1, 28⟩ : Position) } : TransformResult).targetTableName =
      rollbackTableName 0
        ({ statement := "CREATE TABLE \"backupSchema\".\"rollback_0_test\" AS SELECT \"test\".* FROM test WHERE c1 = 1;"
         , sourceSchema := ""
         , sourceTableName := "test"
         , targetTableName := "rollback_0_test"
         , startPosition := (⟨1, 0⟩ : Position)
         , endPosition := (⟨1, 28⟩ : Position) } : TransformResult).sourceTableName :=
  c4_pure_invocation_restart .ansi "backupSchema" "DELETE FROM test WHERE c1 = 1;"
    _ [] [] rfl

/-- C8: a parse failure on one statement does not abort the remaining
statements: the results are exactly those of the surrounding statements
processed without interruption (the failing statement consumes no naming
index), and the failure is collected alongside them carrying the failing
statement's ordinal and span. -/
theorem c8_parse_failure_isolation (d : Dialect) (sch : String)
    (pre post : List RawStatement) (bad : RawStatement) (k o : Nat)
    (hbad : analyze bad.text = .parseFailure) :
    (transformGo d sch (pre ++ bad :: post) k o).1 =
      (transformGo d sch pre k o).1 ++
        (transformGo d sch post (k + eligCount pre) (o + pre.length + 1)).1 ∧
    (transformGo d sch (pre ++ bad :: post) k o).2 =
      (transformGo d sch pre k o).2 ++
        ⟨o + pre.length, bad.startPosition, bad.endPosition⟩ ::
          (transformGo d sch post (k + eligCount pre) (o + pre.length + 1)).2 := by
  constructor
  · rw [transformGo_append_fst d sch pre (bad :: post) k o,
      transformGo_pf_fst d sch bad post (k + eligCount pre) (o + pre.length) hbad]
  · rw [transformGo_append_snd d sch pre (bad :: post) k o,
      transformGo_pf_snd d sch bad post (k + eligCount pre) (o + pre.length) hbad]

/-- C8 witness: an unparseable `DELETE test` between two eligible
statements is reported with its ordinal and span while both neighbours are
transformed exactly as without it. -/
theorem c8_parse_failure_isolation_witness :
    (transformGo .ansi "backupSchema"
        ([{ text := "DELETE FROM test WHERE c1 = 1".data
          , startPosition := (⟨1, 0⟩ : Position)
          , endPosition := (⟨1, 28⟩ : Position) }] ++
          { text := "DELETE test".data
          , startPosition := (⟨2, 0⟩ : Position)
          , endPosition := (⟨2, 7⟩ : Position) } ::
          [{ text := "UPDATE test SET c1 = 1 WHERE c1=2".data
           , startPosition := (⟨3, 0⟩ : Position)
           , endPosition := (⟨3, 32⟩ : Position) }]) 0 1).1 =
      (transformGo .ansi "backupSchema"
          [{ text := "DELETE FROM test WHERE c1 = 1".data
           , startPosition := (⟨1, 0⟩ : Position)
           , endPosition := (⟨1, 28⟩ : Position) }] 0 1).1 ++
        (transformGo .ansi "backupSchema"
          [{ text := "UPDATE test SET c1 = 1 WHERE c1=2".data
           , startPosition := (⟨3, 0⟩ : Position)
           , endPosition := (⟨3, 32⟩ : Position) }]
          (0 + eligCount [{ text := "DELETE FROM test WHERE c1 = 1".data
                          , startPosition := (⟨1, 0⟩ : Position)
                          , endPosition := (⟨1, 28⟩ : Position) }])
          (1 + [({ text := "DELETE FROM test WHERE c1 = 1".data
                 , startPosition := (⟨1, 0⟩ : Position)
                 , endPosition := (⟨1, 28⟩ : Position) } : RawStatement)].length + 1)).1 ∧
    (transformGo .ansi "backupSchema"
        ([{ text := "DELETE FROM test WHERE c1 = 1".data
          , startPosition := (⟨1, 0⟩ : Position)
          , endPosition := (⟨1, 28⟩ : Position) }] ++
          { text := "DELETE test".data
          , startPosition := (⟨2, 0⟩ : Position)
          , endPosition := (⟨2, 7⟩ : Position) } ::
          [{ text := "UPDATE test SET c1 = 1 WHERE c1=2".data
           , startPosition := (⟨3, 0⟩ : Position)
           , endPosition := (⟨3, 32⟩ : Position) }]) 0 1).2 =
      (transformGo .ansi "backupSchema"
          [{ text := "DELETE FROM test WHERE c1 = 1".data
           , startPosition := (⟨1, 0⟩ : Position)
           , endPosition := (⟨1, 28⟩ : Position) }] 0 1).2 ++
        ⟨1 + [({ text := "DELETE FROM test WHERE c1 = 1".data
               , startPosition := (⟨1, 0⟩ : Position)
               , endPosition := (⟨1, 28⟩ : Position) } : RawStatement)].length
        , ⟨2, 0⟩, ⟨2, 7⟩⟩ ::
          (transformGo .ansi "backupSchema"
            [{ text := "UPDATE test SET c1 = 1 WHERE c1=2".data
             , startPosition := (⟨3, 0⟩ : Position)
             , endPosition := (⟨3, 32⟩ : Position) }]
            (0 + eligCount [{ text := "DELETE FROM test WHERE c1 = 1".data
                            , startPosition := (⟨1, 0⟩ : Position)
                            , endPosition := (⟨1, 28⟩ : Position) }])
            (1 + [({ text := "DELETE FROM test WHERE c1 = 1".data
                   , startPosition := (⟨1, 0⟩ : Position)
                   , endPosition := (⟨1, 28⟩ : Position) } : RawStatement)].length + 1)).2 :=
  c8_parse_failure_isolation .ansi "backupSchema"
    [{ text := "DELETE FROM test WHERE c1 = 1".data
     , startPosition := (⟨1, 0⟩ : Position)
     , endPosition := (⟨1, 28⟩ : Position) }]
    [{ text := "UPDATE test SET c1 = 1 WHERE c1=2".data
     , startPosition := (⟨3, 0⟩ : Position)
     , endPosition := (⟨3, 32⟩ : Position) }]
    { text := "DELETE test".data
    , startPosition := (⟨2, 0⟩ : Position)
    , endPosition := (⟨2, 7⟩ : Position) } 0 1 rfl

/-- C9: when the payload carries no `PreUpdateBackupDetail`, or its
database is the empty string, `backupData` returns a nil prior-backup
detail and no error, independently of every collaborator outcome (so no
lookup or backup work can have been performed). -/
theorem c9_skip_without_backup_detail (env : TaskEnv)
    (payload : TaskDatabaseUpdatePayload)
    (h : payload.preUpdateBackupDetail = none ∨
      ∃ d, payload.preUpdateBackupDetail = some d ∧ d.database = "") :
    backupData env payload = .ok none := by
  rcases h with h | ⟨d, hd, hdb⟩
  · simp [backupData, h]
  · simp [backupData, hd, hdb]

/-- C9 witness: an empty backup database name skips the backup step even
though every collaborator in the environment would fail. -/
theorem c9_skip_without_backup_detail_witness :
    backupData
      { instanceRes := none, databaseOk := false, sourceDatabaseName := ""
      , issueRes := none, parseTargetOk := false, backupDatabaseRes := none
      , backupDriverOk := false, driverOk := false, transformRes := none
      , executeOk := fun _ => false, setCommentOk := fun _ => false
      , createIssueCommentOk := fun _ => false, syncOk := false }
      { preUpdateBackupDetail := some { database := "" } } = .ok none :=
  c9_skip_without_backup_detail _ _ (Or.inr ⟨{ database := "" }, rfl, rfl⟩)

/-- When every backup statement executes and every required table comment
is set, the loop succeeds and records one item per statement — regardless
of the issue-comment outcomes, which are only logged. -/
theorem backupLoop_ok (env : TaskEnv) (engine : Engine) (sdb tdb : String) :
    ∀ (stmts : List TransformResult) (i : Nat)
      (items : List PriorBackupDetailItem),
      (∀ l, i ≤ l → l < i + stmts.length →
        env.executeOk l = true ∧
          (setsTableComment engine = true → env.setCommentOk l = true)) →
      ∃ out : List PriorBackupDetailItem,
        backupLoop env engine sdb tdb i stmts items = .ok (some ⟨out⟩) ∧
        out.length = items.length + stmts.length := by
  intro stmts
  induction stmts with
  | nil =>
    intro i items _
    exact ⟨items.reverse, rfl, by simp⟩
  | cons st rest ih =>
    intro i items h
    have hlen : (st :: rest).length = rest.length + 1 := List.length_cons st rest
    have hi := h i (Nat.le_refl i) (by omega)
    have h' : ∀ l, i + 1 ≤ l → l < (i + 1) + rest.length →
        env.executeOk l = true ∧
          (setsTableComment engine = true → env.setCommentOk l = true) := by
      intro l h1 h2
      exact h l (by omega) (by omega)
    obtain ⟨out, heq, hlen2⟩ := ih (i + 1) (mkLoopItem sdb tdb st :: items) h'
    refine ⟨out, ?_, ?_⟩
    · cases hc : setsTableComment engine with
      | false => simp [backupLoop, hi.1, hc]; exact heq
      | true => simp [backupLoop, hi.1, hc, hi.2 hc]; exact heq
    · rw [hlen2, List.length_cons, hlen]
      omega

/-- A failing backup-statement execution aborts the loop with
`executeFailed` at that statement's index. -/
theorem backupLoop_executeFatal (env : TaskEnv) (engine : Engine) (sdb tdb : String) :
    ∀ (stmts : List TransformResult) (i : Nat)
      (items : List PriorBackupDetailItem) (j : Nat),
      i ≤ j → j < i + stmts.length →
      (∀ l, i ≤ l → l < j →
        env.executeOk l = true ∧
          (setsTableComment engine = true → env.setCommentOk l = true)) →
      env.executeOk j = false →
      backupLoop env engine sdb tdb i stmts items = .error (.executeFailed j) := by
  intro stmts
  induction stmts with
  | nil =>
    intro i items j h1 h2 _ _
    simp at h2
    omega
  | cons st rest ih =>
    intro i items j h1 h2 h3 h4
    have hlen : (st :: rest).length = rest.length + 1 := List.length_cons st rest
    rcases Nat.eq_or_lt_of_le h1 with he | hlt
    · subst he
      simp [backupLoop, h4]
    · have hi := h3 i (Nat.le_refl i) hlt
      have htail : backupLoop env engine sdb tdb i (st :: rest) items =
          backupLoop env engine sdb tdb (i + 1) rest
            (mkLoopItem sdb tdb st :: items) := by
        cases hc : setsTableComment engine with
        | false => simp [backupLoop, hi.1, hc]
        | true => simp [backupLoop, hi.1, hc, hi.2 hc]
      rw [htail]
      exact ih (i + 1) (mkLoopItem sdb tdb st :: items) j hlt (by omega)
        (fun l ha hb => h3 l (by omega) hb) h4

/-- When its preconditions hold, `backupData` reduces to its
per-statement loop started at index 0 with no items. -/
theorem backupData_reachesLoop (env : TaskEnv)
    (payload : TaskDatabaseUpdatePayload) (detail : PreUpdateBackupDetail)
    (inst : InstanceMessage) (stmts : List TransformResult)
    (h : reachesLoop env payload detail inst stmts) :
    backupData env payload =
      backupLoop env inst.engine env.sourceDatabaseName detail.database
        0 stmts [] := by
  obtain ⟨h1, h2, h3, h4, ⟨issue, h5⟩, h6, h7, h8, h9, h10⟩ := h
  simp [backupData, h1, h2, h3, h4, h5, h6, h7, h8, h9, h10]

/-- C10: a failing issue-comment creation is never propagated — with every
backup statement executed and every required comment set, `backupData`
succeeds with one prior-backup item per statement whatever the
issue-comment outcomes are; by contrast, a failing execution of a
synthesized backup statement aborts `backupData` with an error and no
prior-backup detail. -/
theorem c10_comment_warn_execute_fatal
    (env₁ env₂ : TaskEnv) (payload₁ payload₂ : TaskDatabaseUpdatePayload)
    (detail₁ detail₂ : PreUpdateBackupDetail) (inst₁ inst₂ : InstanceMessage)
    (stmts₁ stmts₂ : List TransformResult) (j : Nat)
    (hr₁ : reachesLoop env₁ payload₁ detail₁ inst₁ stmts₁)
    (hok : ∀ l, l < stmts₁.length →
      env₁.executeOk l = true ∧
        (setsTableComment inst₁.engine = true → env₁.setCommentOk l = true))
    (hr₂ : reachesLoop env₂ payload₂ detail₂ inst₂ stmts₂)
    (hj : j < stmts₂.length)
    (hprev : ∀ l, l < j →
      env₂.executeOk l = true ∧
        (setsTableComment inst₂.engine = true → env₂.setCommentOk l = true))
    (hfail : env₂.executeOk j = false) :
    (∃ d : PriorBackupDetail,
      backupData env₁ payload₁ = .ok (some d) ∧
      d.items.length = stmts₁.length) ∧
    backupData env₂ payload₂ = .error (.executeFailed j) := by
  constructor
  · obtain ⟨out, heq, hlen⟩ := backupLoop_ok env₁ inst₁.engine
      env₁.sourceDatabaseName detail₁.database stmts₁ 0 []
      (fun l _ hb => hok l (by omega))
    refine ⟨⟨out⟩, ?_, by simpa using hlen⟩
    rw [backupData_reachesLoop env₁ payload₁ detail₁ inst₁ stmts₁ hr₁]
    exact heq
  · rw [backupData_reachesLoop env₂ payload₂ detail₂ inst₂ stmts₂ hr₂]
    exact backupLoop_executeFatal env₂ inst₂.engine env₂.sourceDatabaseName
      detail₂.database stmts₂ 0 [] j (Nat.zero_le j) (by omega)
      (fun l _ hb => hprev l hb) hfail

/-- C10 witness: with one transformed statement, an environment whose
issue-comment creation always fails still yields a one-item success, and
an environment whose statement execution fails aborts with
`executeFailed 0`. -/
theorem c10_comment_warn_execute_fatal_witness :
    (∃ d : PriorBackupDetail,
      backupData
        { instanceRes := some { engine := Engine.POSTGRES }, databaseOk := true
        , sourceDatabaseName := "instances/i/databases/src"
        , issueRes := some (some { uid := 7 }), parseTargetOk := true
        , backupDatabaseRes := some (some ()), backupDriverOk := true
        , driverOk := true
        , transformRes := some [{ statement := "CREATE TABLE \"backupSchema\".\"rollback_0_test\" AS SELECT \"test\".* FROM test WHERE c1 = 1;"
                                , sourceSchema := ""
                                , sourceTableName := "test"
                                , targetTableName := "rollback_0_test"
                                , startPosition := ⟨1, 0⟩
                                , endPosition := ⟨1, 28⟩ }]
        , executeOk := fun _ => true, setCommentOk := fun _ => true
        , createIssueCommentOk := fun _ => false, syncOk := true }
        { preUpdateBackupDetail := some { database := "instances/i/databases/bak" } } =
          .ok (some d) ∧
      d.items.length = [({ statement := "CREATE TABLE \"backupSchema\".\"rollback_0_test\" AS SELECT \"test\".* FROM test WHERE c1 = 1;"
                         , sourceSchema := ""
                         , sourceTableName := "test"
                         , targetTableName := "rollback_0_test"
                         , startPosition := ⟨1, 0⟩
                         , endPosition := ⟨1, 28⟩ } : TransformResult)].length) ∧
    backupData
      { instanceRes := some { engine := Engine.POSTGRES }, databaseOk := true
      , sourceDatabaseName := "instances/i/databases/src"
      , issueRes := some (some { uid := 7 }), parseTargetOk := true
      , backupDatabaseRes := some (some ()), backupDriverOk := true
      , driverOk := true
      , transformRes := some [{ statement := "CREATE TABLE \"backupSchema\".\"rollback_0_test\" AS SELECT \"test\".* FROM test WHERE c1 = 1;"
                              , sourceSchema := ""
                              , sourceTableName := "test"
                              , targetTableName := "rollback_0_test"
                              , startPosition := ⟨1, 0⟩
                              , endPosition := ⟨1, 28⟩ }]
      , executeOk := fun _ => false, setCommentOk := fun _ => true
      , createIssueCommentOk := fun _ => true, syncOk := true }
      { preUpdateBackupDetail := some { database := "instances/i/databases/bak" } } =
        .error (.executeFailed 0) :=
  c10_comment_warn_execute_fatal _ _ _ _ _ _ _ _ _ _ 0
    ⟨rfl, by decide, rfl, rfl, ⟨{ uid := 7 }, rfl⟩, rfl, rfl, rfl, rfl, rfl⟩
    (fun l _ => ⟨rfl, fun _ => rfl⟩)
    ⟨rfl, by decide, rfl, rfl, ⟨{ uid := 7 }, rfl⟩, rfl, rfl, rfl, rfl, rfl⟩
    (by decide)
    (fun l hl => absurd hl (Nat.not_lt_zero l))
    rfl

/-- Suffix chains compose. -/
theorem sfx_trans {a b c : List Char} (h1 : ∃ q, q ++ a = b)
    (h2 : ∃ q, q ++ b = c) : ∃ q, q ++ a = c := by
  obtain ⟨q1, h1⟩ := h1
  obtain ⟨q2, h2⟩ := h2
  exact ⟨q2 ++ q1, by rw [List.append_assoc, h1, h2]⟩

/-- Dropping leading whitespace keeps a suffix of the fragment. -/
theorem skipSpaces_sfx (cs : List Char) : ∃ q, q ++ skipSpaces cs = cs :=
  ⟨cs.takeWhile isSpaceChar, List.takeWhile_append_dropWhile isSpaceChar cs⟩

/-- Dropping the leading word keeps a suffix of the fragment. -/
theorem dropWord_sfx (cs : List Char) : ∃ q, q ++ dropWord cs = cs :=
  ⟨cs.takeWhile (fun c => !isSpaceChar c),
    List.takeWhile_append_dropWhile (fun c => !isSpaceChar c) cs⟩

/-- The remainder returned by keyword recognition is a suffix of the
fragment. -/
theorem isKw_sfx : ∀ (k cs r : List Char), isKw k cs = some r → ∃ q, q ++ r = cs := by
  intro k
  induction k with
  | nil =>
    intro cs r h
    cases cs with
    | nil =>
      simp only [isKw, Option.some.injEq] at h
      exact ⟨[], by rw [List.nil_append, ← h]⟩
    | cons c rest =>
      simp only [isKw] at h
      by_cases hs : isSpaceChar c
      · rw [if_pos hs, Option.some.injEq] at h
        exact ⟨[], by rw [List.nil_append, ← h]⟩
      · rw [if_neg hs] at h
        cases h
  | cons kc ks ih =>
    intro cs r h
    cases cs with
    | nil => simp [isKw] at h
    | cons c rest =>
      simp only [isKw] at h
      by_cases hc : c.toUpper = kc
      · rw [if_pos hc] at h
        obtain ⟨q, hq⟩ := ih rest r h
        exact ⟨c :: q, by rw [List.cons_append, hq]⟩
      · rw [if_neg hc] at h
        cases h

/-- The remainder after a keyword hit of the two-keyword scan is a suffix
of the scanned fragment. -/
theorem scanTwoKws_after_sfx (k1 k2 : List Char) :
    ∀ (cs : List Char) (atB : Bool) (a : List Char),
      (scanTwoKws k1 k2 cs atB).2 = KwHit.first a ∨
        (scanTwoKws k1 k2 cs atB).2 = KwHit.second a →
      ∃ q, q ++ a = cs := by
  intro cs
  induction cs with
  | nil =>
    intro atB a h
    rcases h with h | h <;> simp [scanTwoKws] at h
  | cons c rest ih =>
    intro atB a h
    cases atB with
    | true =>
      cases h1 : isKw k1 (c :: rest) with
      | some after =>
        have h2 : (scanTwoKws k1 k2 (c :: rest) true).2 = .first (skipSpaces after) := by
          simp [scanTwoKws, h1]
        rcases h with h | h <;> rw [h2] at h
        · injection h with ha
          rw [← ha]
          exact sfx_trans (skipSpaces_sfx after) (isKw_sfx k1 (c :: rest) after h1)
        · cases h
      | none =>
        cases h1' : isKw k2 (c :: rest) with
        | some after =>
          have h2 : (scanTwoKws k1 k2 (c :: rest) true).2 = .second (skipSpaces after) := by
            simp [scanTwoKws, h1, h1']
          rcases h with h | h <;> rw [h2] at h
          · cases h
          · injection h with ha
            rw [← ha]
            exact sfx_trans (skipSpaces_sfx after) (isKw_sfx k2 (c :: rest) after h1')
        | none =>
          have h3 : (scanTwoKws k1 k2 (c :: rest) true).2 =
              (scanTwoKws k1 k2 rest (isSpaceChar c)).2 := by
            simp [scanTwoKws, h1, h1']
          rw [h3] at h
          obtain ⟨q, hq⟩ := ih (isSpaceChar c) a h
          exact ⟨c :: q, by rw [List.cons_append, hq]⟩
    | false =>
      have h3 : (scanTwoKws k1 k2 (c :: rest) false).2 =
          (scanTwoKws k1 k2 rest (isSpaceChar c)).2 := by
        simp [scanTwoKws]
      rw [h3] at h
      obtain ⟨q, hq⟩ := ih (isSpaceChar c) a h
      exact ⟨c :: q, by rw [List.cons_append, hq]⟩

/-- The descriptor assembled from an auxiliary list carries exactly the
filter it was given. -/
theorem mkDescWithAux_filter (kind : DmlKind) (p aux f : List Char)
    (d : DmlDescriptor) (h : mkDescWithAux kind p aux f = .descriptor d) :
    d.filter = f := by
  unfold mkDescWithAux at h
  cases hp : parseRefList aux with
  | some refs =>
    rw [hp] at h
    injection h with h'
    rw [← h']
  | none =>
    rw [hp] at h
    cases h

/-- The filter of a recognized DELETE tail is a verbatim suffix of the
tail's source text. -/
theorem parseDeleteTail_filter_sfx (cs : List Char) (d : DmlDescriptor)
    (h : parseDeleteTail cs = .descriptor d) : ∃ q, q ++ d.filter = cs := by
  unfold parseDeleteTail at h
  split at h
  · simp at h
  · split at h
    next afterUsing hhit =>
      have hAU : ∃ q, q ++ afterUsing = cs :=
        sfx_trans
          (scanTwoKws_after_sfx kwUSING kwWHERE (dropWord cs) true afterUsing (Or.inl hhit))
          (dropWord_sfx cs)
      split at h
      · split at h
        next afterWhere hhit2 =>
          rw [mkDescWithAux_filter _ _ _ _ _ h]
          exact sfx_trans
            (scanTwoKws_after_sfx kwWHERE kwWHERE afterUsing true afterWhere (Or.inl hhit2))
            hAU
        next afterWhere hhit2 =>
          rw [mkDescWithAux_filter _ _ _ _ _ h]
          exact sfx_trans
            (scanTwoKws_after_sfx kwWHERE kwWHERE afterUsing true afterWhere (Or.inr hhit2))
            hAU
        next hhit2 =>
          rw [mkDescWithAux_filter _ _ _ _ _ h]
          exact ⟨cs, List.append_nil cs⟩
      · simp at h
    next afterWhere hhit =>
      split at h
      · injection h with h'
        rw [← h']
        exact sfx_trans
          (scanTwoKws_after_sfx kwUSING kwWHERE (dropWord cs) true afterWhere (Or.inr hhit))
          (dropWord_sfx cs)
      · simp at h
    next hhit =>
      split at h
      · injection h with h'
        rw [← h']
        exact ⟨cs, List.append_nil cs⟩
      · simp at h

/-- The filter of a recognized UPDATE tail is a verbatim suffix of the
tail's source text. -/
theorem parseUpdateTail_filter_sfx (cs : List Char) (d : DmlDescriptor)
    (h : parseUpdateTail cs = .descriptor d) : ∃ q, q ++ d.filter = cs := by
  unfold parseUpdateTail at h
  split at h
  · simp at h
  · split at h
    next hset => simp at h
    next afterSet hset =>
      have hAS : ∃ q, q ++ skipSpaces afterSet = cs :=
        sfx_trans (skipSpaces_sfx afterSet)
          (sfx_trans (isKw_sfx kwSET (skipSpaces (dropWord cs)) afterSet hset)
            (sfx_trans (skipSpaces_sfx (dropWord cs)) (dropWord_sfx cs)))
      split at h
      next afterFrom hhit =>
        have hAF : ∃ q, q ++ afterFrom = cs :=
          sfx_trans
            (scanTwoKws_after_sfx kwFROM kwWHERE (skipSpaces afterSet) true afterFrom
              (Or.inl hhit))
            hAS
        split at h
        next afterWhere hhit2 =>
          rw [mkDescWithAux_filter _ _ _ _ _ h]
          exact sfx_trans
            (scanTwoKws_after_sfx kwWHERE kwWHERE afterFrom true afterWhere (Or.inl hhit2))
            hAF
        next afterWhere hhit2 =>
          rw [mkDescWithAux_filter _ _ _ _ _ h]
          exact sfx_trans
            (scanTwoKws_after_sfx kwWHERE kwWHERE afterFrom true afterWhere (Or.inr hhit2))
            hAF
        next hhit2 =>
          rw [mkDescWithAux_filter _ _ _ _ _ h]
          exact ⟨cs, List.append_nil cs⟩
      next afterWhere hhit =>
        injection h with h'
        rw [← h']
        exact sfx_trans
          (scanTwoKws_after_sfx kwFROM kwWHERE (skipSpaces afterSet) true afterWhere
            (Or.inr hhit))
          hAS
      next hhit =>
        injection h with h'
        rw [← h']
        exact ⟨cs, List.append_nil cs⟩

/-- The filter of any recognized statement is a verbatim suffix of the
statement's source text. -/
theorem analyze_filter_sfx (text : List Char) (d : DmlDescriptor)
    (h : analyze text = .descriptor d) : ∃ q, q ++ d.filter = text := by
  unfold analyze at h
  split at h
  next rest h1 =>
    split at h
    next rest2 h2 =>
      exact sfx_trans (parseDeleteTail_filter_sfx (skipSpaces rest2) d h)
        (sfx_trans (skipSpaces_sfx rest2)
          (sfx_trans (isKw_sfx kwFROM (skipSpaces rest) rest2 h2)
            (sfx_trans (skipSpaces_sfx rest)
              (sfx_trans (isKw_sfx kwDELETE (skipSpaces text) rest h1)
                (skipSpaces_sfx text)))))
    next h2 => simp at h
  next h1 =>
    split at h
    next rest h3 =>
      exact sfx_trans (parseUpdateTail_filter_sfx (skipSpaces rest) d h)
        (sfx_trans (skipSpaces_sfx rest)
          (sfx_trans (isKw_sfx kwUPDATE (skipSpaces text) rest h3)
            (skipSpaces_sfx text)))
    next h3 => simp at h

/-- C7: the filter predicate of a backup-eligible statement is copied
verbatim: it is a contiguous tail of the statement's source text, and the
synthesized statement is the filter-independent prefix followed by
` WHERE `, the untouched filter text, and the terminator. -/
theorem c7_filter_verbatim (text : List Char) (desc : DmlDescriptor)
    (dial : Dialect) (sch tgt : String)
    (h : analyze text = .descriptor desc) (hf : desc.filter ≠ []) :
    (∃ q, q ++ desc.filter = text) ∧
    synthesizeText dial sch tgt desc =
      synthesizePrefixText dial sch tgt desc ++
        (" WHERE ".data ++ (desc.filter ++ [';'])) := by
  refine ⟨analyze_filter_sfx text desc h, ?_⟩
  unfold synthesizeText
  rw [if_neg hf, List.append_assoc, List.append_assoc]

/-- C7 witness: for `UPDATE test SET c1 = 1 WHERE c1=2` the unspaced
filter `c1=2` is a verbatim tail of the source and reappears untouched in
the synthesized statement. -/
theorem c7_filter_verbatim_witness :
    (∃ q, q ++ (⟨DmlKind.update, ⟨"test".data, [], "test".data⟩, [],
        "c1=2".data⟩ : DmlDescriptor).filter =
      "UPDATE test SET c1 = 1 WHERE c1=2".data) ∧
    synthesizeText .ansi "backupSchema" "rollback_0_test"
        ⟨DmlKind.update, ⟨"test".data, [], "test".data⟩, [], "c1=2".data⟩ =
      synthesizePrefixText .ansi "backupSchema" "rollback_0_test"
          ⟨DmlKind.update, ⟨"test".data, [], "test".data⟩, [], "c1=2".data⟩ ++
        (" WHERE ".data ++
          ((⟨DmlKind.update, ⟨"test".data, [], "test".data⟩, [],
              "c1=2".data⟩ : DmlDescriptor).filter ++ [';'])) :=
  c7_filter_verbatim "UPDATE test SET c1 = 1 WHERE c1=2".data
    ⟨DmlKind.update, ⟨"test".data, [], "test".data⟩, [], "c1=2".data⟩
    .ansi "backupSchema" "rollback_0_test" rfl (by decide)

/-- Unfolding of the boolean span order into arithmetic. -/
theorem posLE_iff (a b : Position) :
    posLE a b = true ↔
      (a.line < b.line ∨ (a.line = b.line ∧ a.column ≤ b.column)) := by
  simp [posLE, Bool.or_eq_true, Bool.and_eq_true, decide_eq_true_eq]

/-- The strict span order is transitive. -/
theorem posLT_trans {a b c : Position} (h1 : posLT a b) (h2 : posLT b c) :
    posLT a c := by
  unfold posLT at *
  omega

/-- Strict order implies non-strict order. -/
theorem posLT_le {a b : Position} (h : posLT a b) : posLE a b = true := by
  rw [posLE_iff]
  unfold posLT at h
  omega

/-- Strictly earlier positions are not later-or-equal. -/
theorem posLE_false_of_lt {a b : Position} (h : posLT a b) :
    posLE b a = false := by
  cases he : posLE b a with
  | false => rfl
  | true =>
    exfalso
    rw [posLE_iff] at he
    unfold posLT at h
    omega

/-- Reflexivity of the non-strict span order. -/
theorem posLE_refl (a : Position) : posLE a a = true := by
  rw [posLE_iff]
  omega

/-- Advancing over any character strictly increases the position. -/
theorem advancePos_lt (p : Position) (c : Char) : posLT p (advancePos p c) := by
  unfold advancePos
  split
  · exact Or.inl (Nat.lt_succ_self p.line)
  · exact Or.inr ⟨rfl, Nat.lt_succ_self p.column⟩

/-- Every annotated character sits at or after the start position. -/
theorem annotate_mem_le : ∀ (cs : List Char) (p : Position) (cp : Char × Position),
    cp ∈ annotate cs p → cp.2 = p ∨ posLT p cp.2 := by
  intro cs
  induction cs with
  | nil =>
    intro p cp h
    simp [annotate] at h
  | cons c rest ih =>
    intro p cp h
    simp only [annotate, List.mem_cons] at h
    rcases h with h | h
    · exact Or.inl (by rw [h])
    · rcases ih (advancePos p c) cp h with h2 | h2
      · exact Or.inr (by rw [h2]; exact advancePos_lt p c)
      · exact Or.inr (posLT_trans (advancePos_lt p c) h2)

/-- The annotated script is strictly increasing in position. -/
theorem annotate_pairwise : ∀ (cs : List Char) (p : Position),
    (annotate cs p).Pairwise (fun x y => posLT x.2 y.2) := by
  intro cs
  induction cs with
  | nil =>
    intro p
    simp [annotate]
  | cons c rest ih =>
    intro p
    simp only [annotate]
    refine List.Pairwise.cons ?_ (ih (advancePos p c))
    intro y hy
    rcases annotate_mem_le rest (advancePos p c) y hy with h | h
    · rw [h]
      exact advancePos_lt p c
    · exact posLT_trans (advancePos_lt p c) h

/-- The last-token index scanner never reaches the end of the text. -/
theorem tokIdxGo_lt : ∀ (cs : List Char) (i best : Nat) (inW : Bool),
    best < i + cs.length → tokIdxGo cs i best inW < i + cs.length := by
  intro cs
  induction cs with
  | nil =>
    intro i best inW h
    simpa [tokIdxGo] using h
  | cons c rest ih =>
    intro i best inW h
    have hlen : (c :: rest).length = rest.length + 1 := List.length_cons c rest
    unfold tokIdxGo
    split
    · have := ih (i + 1) best false (by omega)
      omega
    · split
      · split
        · have := ih (i + 1) best true (by omega)
          omega
        · have := ih (i + 1) i true (by omega)
          omega
      · have := ih (i + 1) i false (by omega)
        omega

/-- The last token of a non-empty text starts inside the text. -/
theorem lastTokenIdx_lt (cs : List Char) (h : cs ≠ []) :
    lastTokenIdx cs < cs.length := by
  have hpos : 0 < cs.length := List.length_pos.mpr h
  have := tokIdxGo_lt cs 0 0 false (by omega)
  unfold lastTokenIdx
  omega

/-- Every segment produced by the splitter is a contiguous slice of its
input, and the first segment is a prefix. -/
theorem splitSegs_decomp : ∀ (l : List (Char × Position)) (qs : QuoteState)
    (segs : List (List (Char × Position))),
    splitSegs l qs = .ok segs →
    (∀ s₀ ss, segs = s₀ :: ss → ∃ suf, l = s₀ ++ suf) ∧
    (∀ seg ∈ segs, ∃ pre suf, l = pre ++ seg ++ suf) := by
  intro l
  induction l with
  | nil =>
    intro qs segs h
    cases qs with
    | normal =>
      simp only [splitSegs, Except.ok.injEq] at h
      subst h
      constructor
      · intro s₀ ss hs
        have h1 : s₀ = [] := (List.cons.injEq _ _ _ _).mp hs.symm |>.1
        exact ⟨[], by rw [h1]; rfl⟩
      · intro seg hseg
        have h1 : seg = [] := by simpa using hseg
        exact ⟨[], [], by rw [h1]; rfl⟩
    | single => simp [splitSegs] at h
    | double => simp [splitSegs] at h
  | cons cp rest ih =>
    intro qs segs h
    obtain ⟨c, p⟩ := cp
    have hCons : ∀ (qs' : QuoteState),
        consCur (c, p) (splitSegs rest qs') = .ok segs →
        (∀ s₀ ss, segs = s₀ :: ss → ∃ suf, (c, p) :: rest = s₀ ++ suf) ∧
        (∀ seg ∈ segs, ∃ pre suf, (c, p) :: rest = pre ++ seg ++ suf) := by
      intro qs' hc
      unfold consCur at hc
      split at hc
      next hrec =>
        -- splitSegs rest qs' = .ok []
        have hsegs : segs = [[(c, p)]] := by
          injection hc with h1
          exact h1.symm
        subst hsegs
        constructor
        · intro s₀ ss hs
          have h1 : s₀ = [(c, p)] := (List.cons.injEq _ _ _ _).mp hs.symm |>.1
          exact ⟨rest, by rw [h1]; rfl⟩
        · intro seg hseg
          have h1 : seg = [(c, p)] := by simpa using hseg
          exact ⟨[], rest, by rw [h1]; rfl⟩
      next s ss hrec =>
        -- splitSegs rest qs' = .ok (s :: ss)
        have hsegs : segs = ((c, p) :: s) :: ss := by
          injection hc with h1
          exact h1.symm
        subst hsegs
        obtain ⟨ihHead, ihMem⟩ := ih qs' (s :: ss) hrec
        constructor
        · intro s₀ ss' hs
          obtain ⟨h1, _⟩ := (List.cons.injEq _ _ _ _).mp hs.symm
          obtain ⟨suf, hsuf⟩ := ihHead s ss rfl
          exact ⟨suf, by rw [h1, List.cons_append, ← hsuf]⟩
        · intro seg hseg
          rcases (List.mem_cons).mp hseg with h1 | h1
          · obtain ⟨suf, hsuf⟩ := ihHead s ss rfl
            exact ⟨[], suf, by rw [h1, List.nil_append, List.cons_append, ← hsuf]⟩
          · obtain ⟨pre, suf, hps⟩ := ihMem seg (List.mem_cons_of_mem s h1)
            exact ⟨(c, p) :: pre, suf, by
              rw [List.cons_append, List.cons_append, ← hps]⟩
      next e hrec =>
        cases hc
    cases qs with
    | normal =>
      by_cases hc : c = ';'
      · unfold splitSegs at h
        rw [if_pos hc] at h
        split at h
        next segs' hrec =>
          have hsegs : segs = [] :: segs' := by
            injection h with h1
            exact h1.symm
          subst hsegs
          obtain ⟨_, ihMem⟩ := ih QuoteState.normal segs' hrec
          constructor
          · intro s₀ ss hs
            obtain ⟨h1, _⟩ := (List.cons.injEq _ _ _ _).mp hs.symm
            exact ⟨(c, p) :: rest, by rw [h1]; rfl⟩
          · intro seg hseg
            rcases (List.mem_cons).mp hseg with h1 | h1
            · exact ⟨[], (c, p) :: rest, by rw [h1]; rfl⟩
            · obtain ⟨pre, suf, hps⟩ := ihMem seg h1
              exact ⟨(c, p) :: pre, suf, by
                rw [List.cons_append, List.cons_append, ← hps]⟩
        next e hrec =>
          cases h
      · unfold splitSegs at h
        rw [if_neg hc] at h
        exact hCons (quoteStep .normal c) h
    | single =>
      unfold splitSegs at h
      exact hCons (quoteStep .single c) h
    | double =>
      unfold splitSegs at h
      exact hCons (quoteStep .double c) h

/-- Trimming keeps a contiguous slice of the segment. -/
theorem trimAnn_decomp (l : List (Char × Position)) :
    ∃ pre suf, l = pre ++ trimAnn l ++ suf := by
  have h1 : l = l.takeWhile (fun cp => isSpaceChar cp.1) ++
      l.dropWhile (fun cp => isSpaceChar cp.1) :=
    (List.takeWhile_append_dropWhile _ _).symm
  have h2 : (l.dropWhile (fun cp => isSpaceChar cp.1)).reverse =
      (l.dropWhile (fun cp => isSpaceChar cp.1)).reverse.takeWhile
          (fun cp => isSpaceChar cp.1) ++
        (l.dropWhile (fun cp => isSpaceChar cp.1)).reverse.dropWhile
          (fun cp => isSpaceChar cp.1) :=
    (List.takeWhile_append_dropWhile _ _).symm
  have h3 : l.dropWhile (fun cp => isSpaceChar cp.1) =
      trimAnn l ++
        ((l.dropWhile (fun cp => isSpaceChar cp.1)).reverse.takeWhile
          (fun cp => isSpaceChar cp.1)).reverse := by
    have := congrArg List.reverse h2
    rw [List.reverse_reverse, List.reverse_append] at this
    exact this
  refine ⟨l.takeWhile (fun cp => isSpaceChar cp.1),
    ((l.dropWhile (fun cp => isSpaceChar cp.1)).reverse.takeWhile
      (fun cp => isSpaceChar cp.1)).reverse, ?_⟩
  rw [List.append_assoc, ← h3]
  exact h1

/-- Filtering a strictly increasing annotated list by the inclusive span
from the first to the `k`-th element of its middle slice keeps exactly the
first `k + 1` elements of that slice. -/
theorem filter_span_take (pre t suf : List (Char × Position))
    (hp : (pre ++ t ++ suf).Pairwise (fun x y => posLT x.2 y.2))
    (k : Nat) (hk : k < t.length) (h0 : 0 < t.length) :
    (pre ++ t ++ suf).filter
        (fun cp => posLE (t[0]).2 cp.2 && posLE cp.2 (t[k]).2) =
      t.take (k + 1) := by
  rw [List.append_assoc] at hp ⊢
  obtain ⟨hpre, hts, hcross⟩ := (List.pairwise_append).mp hp
  obtain ⟨htt, hsuf, hcross2⟩ := (List.pairwise_append).mp hts
  have htget := (List.pairwise_iff_getElem).mp htt
  have hpre0 : pre.filter
      (fun cp => posLE (t[0]).2 cp.2 && posLE cp.2 (t[k]).2) = [] := by
    rw [List.filter_eq_nil_iff]
    intro x hx
    have hlt : posLT x.2 (t[0]).2 :=
      hcross x hx (t[0]) (List.mem_append_left suf (List.getElem_mem h0))
    simp [posLE_false_of_lt hlt]
  have hsuf0 : suf.filter
      (fun cp => posLE (t[0]).2 cp.2 && posLE cp.2 (t[k]).2) = [] := by
    rw [List.filter_eq_nil_iff]
    intro y hy
    have hlt : posLT (t[k]).2 y.2 := hcross2 (t[k]) (List.getElem_mem hk) y hy
    simp [posLE_false_of_lt hlt]
  have key : ∀ f : Char × Position → Bool,
      (∀ x ∈ t.take (k + 1), f x = true) →
      (∀ x ∈ t.drop (k + 1), f x = false) →
      t.filter f = t.take (k + 1) := by
    intro f hT hD
    conv_lhs => rw [← List.take_append_drop (k + 1) t]
    rw [List.filter_append, List.filter_eq_self.mpr hT,
      List.filter_eq_nil_iff.mpr (fun a ha hpa => by rw [hD a ha] at hpa; cases hpa),
      List.append_nil]
  have hT : ∀ x ∈ t.take (k + 1),
      (posLE (t[0]).2 x.2 && posLE x.2 (t[k]).2) = true := by
    intro x hx
    obtain ⟨i, hi, hxi⟩ := (List.mem_iff_getElem).mp hx
    have hilen : i < t.length := by
      have := hi
      rw [List.length_take] at this
      omega
    have hik : i ≤ k := by
      have := hi
      rw [List.length_take] at this
      omega
    have hix : x = t[i] := by
      rw [← hxi]
      simp
    have h1 : posLE (t[0]).2 x.2 = true := by
      rcases Nat.eq_zero_or_pos i with hz | hpos
      · subst hz
        rw [hix]
        exact posLE_refl _
      · rw [hix]
        exact posLT_le (htget 0 i h0 hilen hpos)
    have h2 : posLE x.2 (t[k]).2 = true := by
      rcases Nat.eq_or_lt_of_le hik with he | hlt
      · subst he
        rw [hix]
        exact posLE_refl _
      · rw [hix]
        exact posLT_le (htget i k hilen hk hlt)
    rw [h1, h2]
    rfl
  have hD : ∀ y ∈ t.drop (k + 1),
      (posLE (t[0]).2 y.2 && posLE y.2 (t[k]).2) = false := by
    intro y hy
    obtain ⟨j, hj, hyj⟩ := (List.mem_iff_getElem).mp hy
    have hjlen : k + 1 + j < t.length := by
      have := hj
      rw [List.length_drop] at this
      omega
    have hjy : y = t[k + 1 + j] := by
      rw [← hyj]
      simp
    have hlt : posLT (t[k]).2 y.2 := by
      rw [hjy]
      exact htget k (k + 1 + j) hk hjlen (by omega)
    rw [posLE_false_of_lt hlt, Bool.and_false]
  have hmid := key (fun cp => posLE (t[0]).2 cp.2 && posLE cp.2 (t[k]).2) hT hD
  rw [List.filter_append, List.filter_append, hpre0, hmid, hsuf0,
    List.append_nil, List.nil_append]

/-- C2 (amended): for every statement produced by the splitter, extracting
the recorded inclusive span from the script yields the statement's
significant text truncated after the first character of its last token —
the recorded end position is the start of the last token, not the last
significant character. -/
theorem c2_endPosition_lastToken_amended (s : String)
    (stmts : List RawStatement) (st : RawStatement)
    (hs : splitScript s = .ok stmts) (hm : st ∈ stmts) :
    extractSpan s st.startPosition st.endPosition =
      st.text.take (lastTokenIdx st.text + 1) := by
  unfold splitScript at hs
  split at hs
  next segs hsegs =>
    have hstmts : stmts = segs.filterMap mkStatement := by
      injection hs with h1
      exact h1.symm
    subst hstmts
    obtain ⟨seg, hsegmem, hmk⟩ := (List.mem_filterMap).mp hm
    obtain ⟨_, hdec⟩ := splitSegs_decomp (annotate s.data ⟨1, 0⟩) .normal segs hsegs
    obtain ⟨pre0, suf0, hps⟩ := hdec seg hsegmem
    obtain ⟨pre1, suf1, hterm⟩ := trimAnn_decomp seg
    unfold mkStatement at hmk
    split at hmk
    next hnil => cases hmk
    next c p rest htrim =>
      injection hmk with hrec
      have h0 : 0 < ((c, p) :: rest).length := by simp
      have hk : lastTokenIdx (((c, p) :: rest).map Prod.fst) <
          ((c, p) :: rest).length := by
        have hne : ((c, p) :: rest).map Prod.fst ≠ [] := by simp
        have := lastTokenIdx_lt (((c, p) :: rest).map Prod.fst) hne
        rw [List.length_map] at this
        exact this
      have hstart : st.startPosition = (((c, p) :: rest)[0]).2 := by
        rw [← hrec]
        rfl
      have htext : st.text = ((c, p) :: rest).map Prod.fst := by
        rw [← hrec]
      have hend : st.endPosition =
          (((c, p) :: rest)[lastTokenIdx (((c, p) :: rest).map Prod.fst)]).2 := by
        rw [← hrec]
        show (((c, p) :: rest).getD
          (lastTokenIdx (((c, p) :: rest).map Prod.fst)) (c, p)).2 = _
        rw [List.getD_eq_getElem ((c, p) :: rest) (c, p) hk]
      have hall : annotate s.data ⟨1, 0⟩ =
          (pre0 ++ pre1) ++ ((c, p) :: rest) ++ (suf1 ++ suf0) := by
        rw [hps, hterm, htrim]
        simp [List.append_assoc]
      have hpw : ((pre0 ++ pre1) ++ ((c, p) :: rest) ++ (suf1 ++ suf0)).Pairwise
          (fun x y => posLT x.2 y.2) := by
        rw [← hall]
        exact annotate_pairwise s.data ⟨1, 0⟩
      have hfil := filter_span_take (pre0 ++ pre1) ((c, p) :: rest) (suf1 ++ suf0)
        hpw (lastTokenIdx (((c, p) :: rest).map Prod.fst)) hk h0
      unfold extractSpan
      rw [hstart, hend, htext, hall, hfil, List.map_take]
  next e hsegs =>
    simp at hs

/-- C2 amended witness: on the `DELETE FROM t USING test` fixture the
extracted span reproduces the statement text up to the first character of
the final token `a1`. -/
theorem c2_endPosition_lastToken_amended_witness :
    extractSpan "DELETE FROM t\nUSING test\nWHERE t.c1 = 1 and t.a1 = test.a1;"
        ({ text := "DELETE FROM t\nUSING test\nWHERE t.c1 = 1 and t.a1 = test.a1".data
         , startPosition := (⟨1, 0⟩ : Position)
         , endPosition := (⟨3, 31⟩ : Position) } : RawStatement).startPosition
        ({ text := "DELETE FROM t\nUSING test\nWHERE t.c1 = 1 and t.a1 = test.a1".data
         , startPosition := (⟨1, 0⟩ : Position)
         , endPosition := (⟨3, 31⟩ : Position) } : RawStatement).endPosition =
      ({ text := "DELETE FROM t\nUSING test\nWHERE t.c1 = 1 and t.a1 = test.a1".data
       , startPosition := (⟨1, 0⟩ : Position)
       , endPosition := (⟨3, 31⟩ : Position) } : RawStatement).text.take
        (lastTokenIdx
          ({ text := "DELETE FROM t\nUSING test\nWHERE t.c1 = 1 and t.a1 = test.a1".data
           , startPosition := (⟨1, 0⟩ : Position)
           , endPosition := (⟨3, 31⟩ : Position) } : RawStatement).text + 1) :=
  c2_endPosition_lastToken_amended
    "DELETE FROM t\nUSING test\nWHERE t.c1 = 1 and t.a1 = test.a1;"
    [{ text := "DELETE FROM t\nUSING test\nWHERE t.c1 = 1 and t.a1 = test.a1".data
     , startPosition := (⟨1, 0⟩ : Position)
     , endPosition := (⟨3, 31⟩ : Position) }]
    { text := "DELETE FROM t\nUSING test\nWHERE t.c1 = 1 and t.a1 = test.a1".data
    , startPosition := (⟨1, 0⟩ : Position)
    , endPosition := (⟨3, 31⟩ : Position) }
    rfl (List.mem_singleton.mpr rfl)

/-! ## Schematic-shape parsing lemmas -/

/-- A word character is never treated as whitespace. -/
theorem wordChar_not_space (c : Char) (h : isWordChar c = true) :
    isSpaceChar c = false := by
  cases hs : isSpaceChar c with
  | false => rfl
  | true =>
    exfalso
    unfold isSpaceChar at hs
    simp only [Bool.or_eq_true, decide_eq_true_eq] at hs
    rcases hs with ((h1 | h1) | h1) | h1 <;> subst h1 <;> exact absurd h (by decide)

/-- `takeWord` of a whitespace-free token followed by a space is the token. -/
theorem takeWord_token : ∀ (w s : List Char), (∀ c ∈ w, isSpaceChar c = false) →
    takeWord (w ++ ' ' :: s) = w := by
  intro w
  induction w with
  | nil => intro s _; rfl
  | cons c w2 ih =>
    intro s h
    have hc : isSpaceChar c = false := h c (by simp)
    have ih2 : (w2 ++ ' ' :: s).takeWhile (fun c => !isSpaceChar c) = w2 :=
      ih s (fun a ha => h a (by simp [ha]))
    simp [takeWord, List.takeWhile_cons, hc, ih2]

/-- `dropWord` of a whitespace-free token followed by a space is the
remainder starting at the space. -/
theorem dropWord_token : ∀ (w s : List Char), (∀ c ∈ w, isSpaceChar c = false) →
    dropWord (w ++ ' ' :: s) = ' ' :: s := by
  intro w
  induction w with
  | nil => intro s _; rfl
  | cons c w2 ih =>
    intro s h
    have hc : isSpaceChar c = false := h c (by simp)
    have ih2 : (w2 ++ ' ' :: s).dropWhile (fun c => !isSpaceChar c) = ' ' :: s :=
      ih s (fun a ha => h a (by simp [ha]))
    simp [dropWord, List.dropWhile_cons, hc, ih2]

/-- `takeWord` of an entirely whitespace-free fragment is the fragment. -/
theorem takeWord_all : ∀ (w : List Char), (∀ c ∈ w, isSpaceChar c = false) →
    takeWord w = w := by
  intro w
  induction w with
  | nil => intro _; rfl
  | cons c w2 ih =>
    intro h
    have hc : isSpaceChar c = false := h c (by simp)
    have ih2 : w2.takeWhile (fun c => !isSpaceChar c) = w2 :=
      ih (fun a ha => h a (by simp [ha]))
    simp [takeWord, List.takeWhile_cons, hc, ih2]

/-- `skipSpaces` is the identity on a fragment with a non-space head. -/
theorem skipSpaces_eq_self (l : List Char)
    (h : ∀ c s2, l = c :: s2 → isSpaceChar c = false) : skipSpaces l = l := by
  cases l with
  | nil => rfl
  | cons c s2 =>
    have hc := h c s2 rfl
    simp [skipSpaces, List.dropWhile_cons, hc]

/-- A keyword does not match at a whitespace-free token whose uppercasing
differs from it, provided the token's follower is not a word character. -/
theorem isKw_none_of_token : ∀ (k w s : List Char),
    (∀ c ∈ k, isWordChar c = true) → w ≠ [] →
    (∀ c ∈ w, isSpaceChar c = false) → w.map Char.toUpper ≠ k →
    (∀ c s2, s = c :: s2 → isWordChar c.toUpper = false) →
    isKw k (w ++ s) = none := by
  intro k
  induction k with
  | nil =>
    intro w s _ hw hns _ _
    cases w with
    | nil => exact absurd rfl hw
    | cons c w2 =>
      have hc : isSpaceChar c = false := hns c (by simp)
      simp [isKw, hc]
  | cons kc ks ih =>
    intro w s hk hw hns hne hs
    cases w with
    | nil => exact absurd rfl hw
    | cons c w2 =>
      simp only [List.cons_append, isKw]
      by_cases hcu : c.toUpper = kc
      · rw [if_pos hcu]
        cases w2 with
        | nil =>
          cases ks with
          | nil =>
            exfalso
            exact hne (by simp [hcu])
          | cons kc2 ks2 =>
            cases s with
            | nil => rfl
            | cons c2 s2 =>
              have h2 : isWordChar c2.toUpper = false := hs c2 s2 rfl
              have h3 : isWordChar kc2 = true := hk kc2 (by simp)
              have h4 : ¬ (c2.toUpper = kc2) := by
                intro he
                rw [he, h3] at h2
                exact absurd h2 (by decide)
              simp [isKw, h4]
        | cons c2 w3 =>
          have hrec := ih (c2 :: w3) s (fun a ha => hk a (by simp [ha]))
            (by simp) (fun a ha => hns a (by simp [ha]))
            (fun hmap => hne (by simp [hcu, hmap]))
            hs
          simpa using hrec
      · rw [if_neg hcu]

/-- One scan step off a word boundary: the character is copied into the
before-text and the scan continues. -/
theorem scan_cons_skip (k1 k2 : List Char) (c : Char) (rest : List Char) :
    scanTwoKws k1 k2 (c :: rest) false =
      (c :: (scanTwoKws k1 k2 rest (isSpaceChar c)).1,
       (scanTwoKws k1 k2 rest (isSpaceChar c)).2) := by
  simp [scanTwoKws]

/-- One scan step at a word boundary where neither keyword matches. -/
theorem scan_cons_noHit (k1 k2 : List Char) (c : Char) (rest : List Char)
    (h1 : isKw k1 (c :: rest) = none) (h2 : isKw k2 (c :: rest) = none) :
    scanTwoKws k1 k2 (c :: rest) true =
      (c :: (scanTwoKws k1 k2 rest (isSpaceChar c)).1,
       (scanTwoKws k1 k2 rest (isSpaceChar c)).2) := by
  simp [scanTwoKws, h1, h2]

/-- The scan passes over a whitespace-free run while off a word boundary. -/
theorem scan_run_false (k1 k2 : List Char) : ∀ (w s : List Char),
    (∀ c ∈ w, isSpaceChar c = false) →
    scanTwoKws k1 k2 (w ++ s) false =
      (w ++ (scanTwoKws k1 k2 s false).1, (scanTwoKws k1 k2 s false).2) := by
  intro w
  induction w with
  | nil => intro s _; simp
  | cons c w2 ih =>
    intro s h
    have hc : isSpaceChar c = false := h c (by simp)
    rw [List.cons_append, scan_cons_skip, hc, ih s (fun a ha => h a (by simp [ha]))]
    simp

/-- The scan passes over a whitespace-free token that matches neither
keyword, entering from a word boundary. -/
theorem scan_token_true (k1 k2 w s : List Char) (hw : w ≠ [])
    (hns : ∀ c ∈ w, isSpaceChar c = false)
    (h1 : isKw k1 (w ++ s) = none) (h2 : isKw k2 (w ++ s) = none) :
    scanTwoKws k1 k2 (w ++ s) true =
      (w ++ (scanTwoKws k1 k2 s false).1, (scanTwoKws k1 k2 s false).2) := by
  cases w with
  | nil => exact absurd rfl hw
  | cons c w2 =>
    rw [List.cons_append] at h1 h2
    have hc : isSpaceChar c = false := hns c (by simp)
    rw [List.cons_append, scan_cons_noHit k1 k2 c (w2 ++ s) h1 h2, hc,
      scan_run_false k1 k2 w2 s (fun a ha => hns a (by simp [ha]))]
    simp

/-- Entering at the space that precedes a leading `USING`, the scan hits
its first keyword at once. -/
theorem scan_sp_using (rest : List Char) :
    scanTwoKws kwUSING kwWHERE (' ' :: (kwUSING ++ ' ' :: rest)) true =
      ([' '], .first (skipSpaces rest)) := rfl

/-- Off a word boundary, the space before a `WHERE` restores the boundary
and the scan hits the keyword. -/
theorem scan_sp_where (rest : List Char) :
    scanTwoKws kwWHERE kwWHERE (' ' :: (kwWHERE ++ ' ' :: rest)) false =
      ([' '], .first (skipSpaces rest)) := rfl

/-- Off a word boundary, the space before a `FROM` restores the boundary
and the scan hits the keyword. -/
theorem scan_sp_from (rest : List Char) :
    scanTwoKws kwFROM kwWHERE (' ' :: (kwFROM ++ ' ' :: rest)) false =
      ([' '], .first (skipSpaces rest)) := rfl

/-- Scanning the comma-separated auxiliary list followed by
` WHERE <cond>`: every list item is passed over and the scan hits the
`WHERE`, returning the list text (plus the boundary space) and the filter
with leading whitespace dropped. -/
theorem scan_commaJoin_where : ∀ (auxs : List (List Char)) (cond : List Char),
    auxs ≠ [] →
    (∀ a ∈ auxs, a ≠ [] ∧ (∀ c ∈ a, isSpaceChar c = false) ∧
      a.map Char.toUpper ≠ kwWHERE) →
    scanTwoKws kwWHERE kwWHERE
        (commaJoin auxs ++ (' ' :: (kwWHERE ++ ' ' :: cond))) true =
      (commaJoin auxs ++ [' '], .first (skipSpaces cond)) := by
  intro auxs
  induction auxs with
  | nil => intro cond h _; exact absurd rfl h
  | cons a auxs ih =>
    intro cond _ ha
    obtain ⟨ha1, ha2, ha3⟩ := ha a (by simp)
    have hkw : ∀ c ∈ kwWHERE, isWordChar c = true := by decide
    cases auxs with
    | nil =>
      simp only [commaJoin]
      have h1 : isKw kwWHERE (a ++ (' ' :: (kwWHERE ++ ' ' :: cond))) = none :=
        isKw_none_of_token kwWHERE a _ hkw ha1 ha2 ha3
          (fun c s2 he => by
            injection he with he1 _
            rw [← he1]
            decide)
      rw [scan_token_true kwWHERE kwWHERE a _ ha1 ha2 h1 h1, scan_sp_where]
    | cons b auxs2 =>
      have ih2 := ih cond (by simp) (fun x hx => ha x (by simp [hx]))
      have h1 : isKw kwWHERE (a ++ (',' :: ' ' ::
          (commaJoin (b :: auxs2) ++ (' ' :: (kwWHERE ++ ' ' :: cond))))) = none :=
        isKw_none_of_token kwWHERE a _ hkw ha1 ha2 ha3
          (fun c s2 he => by
            injection he with he1 _
            rw [← he1]
            decide)
      have hs2 : scanTwoKws kwWHERE kwWHERE (',' :: ' ' ::
          (commaJoin (b :: auxs2) ++ (' ' :: (kwWHERE ++ ' ' :: cond)))) false =
          (',' :: ' ' :: (commaJoin (b :: auxs2) ++ [' ']),
            .first (skipSpaces cond)) := by
        rw [scan_cons_skip]
        rw [show isSpaceChar ',' = false from rfl, scan_cons_skip]
        rw [show isSpaceChar ' ' = true from rfl, ih2]
      have hcj : commaJoin (a :: b :: auxs2) ++ (' ' :: (kwWHERE ++ ' ' :: cond)) =
          a ++ (',' :: ' ' ::
            (commaJoin (b :: auxs2) ++ (' ' :: (kwWHERE ++ ' ' :: cond)))) := by
        simp [commaJoin, List.append_assoc]
      rw [hcj, scan_token_true kwWHERE kwWHERE a _ ha1 ha2 h1 h1, hs2]
      simp [commaJoin, List.append_assoc]

/-- Scanning the space-separated assignment-token run followed by
` FROM <rest>`: every token is passed over and the scan hits the `FROM`. -/
theorem scan_spaceJoin_from : ∀ (ts : List (List Char)) (rest : List Char),
    ts ≠ [] →
    (∀ w ∈ ts, w ≠ [] ∧ (∀ c ∈ w, isSpaceChar c = false) ∧
      w.map Char.toUpper ≠ kwFROM ∧ w.map Char.toUpper ≠ kwWHERE) →
    scanTwoKws kwFROM kwWHERE
        (spaceJoin ts ++ (' ' :: (kwFROM ++ ' ' :: rest))) true =
      (spaceJoin ts ++ [' '], .first (skipSpaces rest)) := by
  intro ts
  induction ts with
  | nil => intro rest h _; exact absurd rfl h
  | cons w ts ih =>
    intro rest _ hts
    obtain ⟨hw1, hw2, hw3, hw4⟩ := hts w (by simp)
    have hkF : ∀ c ∈ kwFROM, isWordChar c = true := by decide
    have hkW : ∀ c ∈ kwWHERE, isWordChar c = true := by decide
    cases ts with
    | nil =>
      simp only [spaceJoin]
      have h1 : isKw kwFROM (w ++ (' ' :: (kwFROM ++ ' ' :: rest))) = none :=
        isKw_none_of_token kwFROM w _ hkF hw1 hw2 hw3
          (fun c s2 he => by
            injection he with he1 _
            rw [← he1]
            decide)
      have h2 : isKw kwWHERE (w ++ (' ' :: (kwFROM ++ ' ' :: rest))) = none :=
        isKw_none_of_token kwWHERE w _ hkW hw1 hw2 hw4
          (fun c s2 he => by
            injection he with he1 _
            rw [← he1]
            decide)
      rw [scan_token_true kwFROM kwWHERE w _ hw1 hw2 h1 h2, scan_sp_from]
    | cons w2 ts2 =>
      have ih2 := ih rest (by simp) (fun x hx => hts x (by simp [hx]))
      have h1 : isKw kwFROM (w ++ (' ' ::
          (spaceJoin (w2 :: ts2) ++ (' ' :: (kwFROM ++ ' ' :: rest))))) = none :=
        isKw_none_of_token kwFROM w _ hkF hw1 hw2 hw3
          (fun c s2 he => by
            injection he with he1 _
            rw [← he1]
            decide)
      have h2 : isKw kwWHERE (w ++ (' ' ::
          (spaceJoin (w2 :: ts2) ++ (' ' :: (kwFROM ++ ' ' :: rest))))) = none :=
        isKw_none_of_token kwWHERE w _ hkW hw1 hw2 hw4
          (fun c s2 he => by
            injection he with he1 _
            rw [← he1]
            decide)
      have hs2 : scanTwoKws kwFROM kwWHERE (' ' ::
          (spaceJoin (w2 :: ts2) ++ (' ' :: (kwFROM ++ ' ' :: rest)))) false =
          (' ' :: (spaceJoin (w2 :: ts2) ++ [' ']), .first (skipSpaces rest)) := by
        rw [scan_cons_skip]
        rw [show isSpaceChar ' ' = true from rfl, ih2]
      have hsj : spaceJoin (w :: w2 :: ts2) ++ (' ' :: (kwFROM ++ ' ' :: rest)) =
          w ++ (' ' ::
            (spaceJoin (w2 :: ts2) ++ (' ' :: (kwFROM ++ ' ' :: rest)))) := by
        simp [spaceJoin, List.append_assoc]
      rw [hsj, scan_token_true kwFROM kwWHERE w _ hw1 hw2 h1 h2, hs2]
      simp [spaceJoin, List.append_assoc]

/-- `skipSpaces` is the identity on a rendered table list followed by
anything: the list's first character is not whitespace. -/
theorem skipSpaces_commaJoin_append (auxs : List (List Char)) (X : List Char)
    (hne : auxs ≠ [])
    (ha : ∀ a ∈ auxs, a ≠ [] ∧ ∀ c ∈ a, isSpaceChar c = false) :
    skipSpaces (commaJoin auxs ++ X) = commaJoin auxs ++ X := by
  apply skipSpaces_eq_self
  intro c s2 he
  cases auxs with
  | nil => exact absurd rfl hne
  | cons a rest =>
    obtain ⟨h1, h2⟩ := ha a (by simp)
    cases a with
    | nil => exact absurd rfl h1
    | cons c0 a2 =>
      have hc0 : isSpaceChar c0 = false := h2 c0 (by simp)
      cases rest with
      | nil =>
        simp only [commaJoin, List.cons_append] at he
        injection he with he1 _
        rw [← he1]
        exact hc0
      | cons b rest2 =>
        simp only [commaJoin, List.cons_append, List.append_assoc] at he
        injection he with he1 _
        rw [← he1]
        exact hc0

/-- `skipSpaces` is the identity on a rendered token run followed by
anything: the run's first character is not whitespace. -/
theorem skipSpaces_spaceJoin_append (ts : List (List Char)) (X : List Char)
    (hne : ts ≠ [])
    (hts : ∀ w ∈ ts, w ≠ [] ∧ ∀ c ∈ w, isSpaceChar c = false) :
    skipSpaces (spaceJoin ts ++ X) = spaceJoin ts ++ X := by
  apply skipSpaces_eq_self
  intro c s2 he
  cases ts with
  | nil => exact absurd rfl hne
  | cons w rest =>
    obtain ⟨h1, h2⟩ := hts w (by simp)
    cases w with
    | nil => exact absurd rfl h1
    | cons c0 w2 =>
      have hc0 : isSpaceChar c0 = false := h2 c0 (by simp)
      cases rest with
      | nil =>
        simp only [spaceJoin, List.cons_append] at he
        injection he with he1 _
        rw [← he1]
        exact hc0
      | cons b rest2 =>
        simp only [spaceJoin, List.cons_append, List.append_assoc] at he
        injection he with he1 _
        rw [← he1]
        exact hc0

/-- `splitCommas` always yields at least one part. -/
theorem splitCommas_ne_nil : ∀ (l : List Char), splitCommas l ≠ [] := by
  intro l
  induction l with
  | nil => simp [splitCommas]
  | cons c rest ih =>
    simp only [splitCommas]
    by_cases hc : c = ','
    · simp [hc]
    · rw [if_neg hc]
      rcases hsp : splitCommas rest with _ | ⟨s, ss⟩ <;> simp

/-- A comma-free run prepends onto the first part of the split of the
remainder. -/
theorem splitCommas_word_append : ∀ (w : List Char), (∀ c ∈ w, ¬ c = ',') →
    ∀ (l hd : List Char) (tl : List (List Char)), splitCommas l = hd :: tl →
    splitCommas (w ++ l) = (w ++ hd) :: tl := by
  intro w
  induction w with
  | nil => intro _ l hd tl h; simpa using h
  | cons c w2 ih =>
    intro hw l hd tl h
    have hc : ¬ c = ',' := hw c (by simp)
    have ih2 := ih (fun a ha => hw a (by simp [ha])) l hd tl h
    simp only [List.cons_append, splitCommas, List.append_eq]
    rw [if_neg hc, ih2]

/-- `trimChars` is the identity on whitespace-free text. -/
theorem trimChars_nonspace (w : List Char)
    (h : ∀ c ∈ w, isSpaceChar c = false) : trimChars w = w := by
  have h1 : w.dropWhile isSpaceChar = w := by
    cases w with
    | nil => rfl
    | cons c w2 => simp [List.dropWhile_cons, h c (by simp)]
  have h2 : w.reverse.dropWhile isSpaceChar = w.reverse := by
    cases hw : w.reverse with
    | nil => rfl
    | cons c w2 =>
      have hc : c ∈ w := by
        have hm : c ∈ w.reverse := by
          rw [hw]
          exact List.mem_cons_self c w2
        exact List.mem_reverse.mp hm
      simp [List.dropWhile_cons, h c hc]
  unfold trimChars
  rw [h1, h2, List.reverse_reverse]

/-- A leading space is discarded by `trimChars`. -/
theorem trimChars_cons_space (l : List Char) :
    trimChars (' ' :: l) = trimChars l := rfl

/-- `trimChars` strips exactly the boundary space off a whitespace-free
token. -/
theorem trimChars_token_space (w : List Char)
    (h : ∀ c ∈ w, isSpaceChar c = false) : trimChars (w ++ [' ']) = w := by
  cases w with
  | nil => rfl
  | cons c w2 =>
    unfold trimChars
    have h1 : (c :: w2 ++ [' ']).dropWhile isSpaceChar = c :: w2 ++ [' '] := by
      simp [List.dropWhile_cons, h c (by simp)]
    rw [h1]
    have h2 : (c :: w2 ++ [' ']).reverse = ' ' :: (c :: w2).reverse := by simp
    rw [h2]
    have h3 : List.dropWhile isSpaceChar (' ' :: (c :: w2).reverse) =
        List.dropWhile isSpaceChar ((c :: w2).reverse) := rfl
    rw [h3]
    have h4 : List.dropWhile isSpaceChar ((c :: w2).reverse) = (c :: w2).reverse := by
      cases hw : (c :: w2).reverse with
      | nil => rfl
      | cons d r =>
        have hd : d ∈ c :: w2 := by
          have hm : d ∈ (c :: w2).reverse := by
            rw [hw]
            exact List.mem_cons_self d r
          exact List.mem_reverse.mp hm
        simp [List.dropWhile_cons, h d hd]
    rw [h4, List.reverse_reverse]

/-- Splitting and trimming the rendered table list (with its boundary
space) recovers exactly the original items in order. -/
theorem splitCommas_trim_commaJoin : ∀ (auxs : List (List Char)), auxs ≠ [] →
    (∀ a ∈ auxs, (∀ c ∈ a, isSpaceChar c = false) ∧ (∀ c ∈ a, ¬ c = ',')) →
    (splitCommas (commaJoin auxs ++ [' '])).map trimChars = auxs := by
  intro auxs
  induction auxs with
  | nil => intro h _; exact absurd rfl h
  | cons a auxs ih =>
    intro _ ha
    obtain ⟨ha1, ha2⟩ := ha a (by simp)
    cases auxs with
    | nil =>
      simp only [commaJoin]
      have h0 : splitCommas ([' '] : List Char) = [[' ']] := rfl
      have h1 := splitCommas_word_append a ha2 [' '] [' '] [] h0
      rw [h1]
      simp [trimChars_token_space a ha1]
    | cons b auxs2 =>
      have ih2 := ih (by simp) (fun x hx => ha x (by simp [hx]))
      obtain ⟨hd, tl, hsp⟩ : ∃ hd tl,
          splitCommas (commaJoin (b :: auxs2) ++ [' ']) = hd :: tl := by
        rcases hx : splitCommas (commaJoin (b :: auxs2) ++ [' ']) with _ | ⟨x, xs⟩
        · exact absurd hx (splitCommas_ne_nil _)
        · exact ⟨x, xs, rfl⟩
      rw [hsp] at ih2
      simp only [List.map_cons] at ih2
      have hsp2 : splitCommas (' ' :: (commaJoin (b :: auxs2) ++ [' '])) =
          (' ' :: hd) :: tl := by
        rw [show splitCommas (' ' :: (commaJoin (b :: auxs2) ++ [' '])) =
            (match splitCommas (commaJoin (b :: auxs2) ++ [' ']) with
              | [] => [[' ']]
              | s :: ss => (' ' :: s) :: ss) from rfl, hsp]
      have hsp3 : splitCommas (',' :: ' ' :: (commaJoin (b :: auxs2) ++ [' '])) =
          ([] : List Char) :: (' ' :: hd) :: tl := by
        rw [show splitCommas (',' :: ' ' :: (commaJoin (b :: auxs2) ++ [' '])) =
            ([] : List Char) ::
              splitCommas (' ' :: (commaJoin (b :: auxs2) ++ [' '])) from rfl, hsp2]
      have h1 := splitCommas_word_append a ha2
        (',' :: ' ' :: (commaJoin (b :: auxs2) ++ [' ']))
        [] ((' ' :: hd) :: tl) hsp3
      have harr : commaJoin (a :: b :: auxs2) ++ [' '] =
          a ++ (',' :: ' ' :: (commaJoin (b :: auxs2) ++ [' '])) := by
        simp [commaJoin, List.append_assoc]
      rw [harr, h1]
      simp only [List.map_cons, List.append_nil]
      rw [trimChars_nonspace a ha1, trimChars_cons_space, ih2]

/-- A plain identifier maps to the unqualified table reference naming
itself. -/
theorem mkTableRef_plain (w : List Char) (h : plainWord w) :
    mkTableRef w = ⟨w, [], w⟩ := by
  obtain ⟨h1, h2⟩ := h
  have hns : ∀ c ∈ w, isSpaceChar c = false :=
    fun c hc => wordChar_not_space c (h2 c hc)
  have hdot : w.contains '.' = false := by
    cases hc : w.contains '.' with
    | false => rfl
    | true =>
      exfalso
      have hm : '.' ∈ w := by simpa using hc
      exact absurd (h2 '.' hm) (by decide)
  simp only [mkTableRef, splitDot]
  rw [takeWord_all w hns, hdot]
  simp

/-- Parsing back the rendered auxiliary list recovers one unqualified
reference per listed table, in order. -/
theorem parseRefList_commaJoin (auxs : List (List Char))
    (hne : auxs ≠ []) (ha : ∀ a ∈ auxs, plainWord a) :
    parseRefList (commaJoin auxs ++ [' ']) =
      some (auxs.map (fun a => (⟨a, [], a⟩ : TableRef))) := by
  have hns : ∀ a ∈ auxs, ∀ c ∈ a, isSpaceChar c = false :=
    fun a hx c hc => wordChar_not_space c ((ha a hx).2 c hc)
  have hcm : ∀ a ∈ auxs, ∀ c ∈ a, ¬ c = ',' := by
    intro a hx c hc he
    have hw := (ha a hx).2 c hc
    rw [he] at hw
    exact absurd hw (by decide)
  have hparts := splitCommas_trim_commaJoin auxs hne
    (fun a hx => ⟨hns a hx, hcm a hx⟩)
  simp only [parseRefList]
  rw [hparts]
  have hany : (auxs.any fun p => p = []) = false := by
    rw [List.any_eq_false]
    intro x hx
    simp [(ha x hx).1]
  rw [hany]
  simp only [Bool.false_eq_true, if_false]
  exact congrArg some (List.map_congr_left (fun a hx => mkTableRef_plain a (ha a hx)))

/-- Assembling the descriptor from the rendered auxiliary list yields the
expected unqualified references. -/
theorem mkDescWithAux_commaJoin (kind : DmlKind) (T : List Char)
    (auxs : List (List Char)) (cond : List Char)
    (hT : plainWord T) (hne : auxs ≠ []) (ha : ∀ a ∈ auxs, plainWord a) :
    mkDescWithAux kind T (commaJoin auxs ++ [' ']) cond =
      .descriptor ⟨kind, ⟨T, [], T⟩,
        auxs.map (fun a => (⟨a, [], a⟩ : TableRef)), cond⟩ := by
  simp only [mkDescWithAux]
  rw [parseRefList_commaJoin auxs hne ha, mkTableRef_plain T hT]

/-- The DELETE tail parser on the schematic
`T USING a1, a2, ... WHERE cond` tail: primary `T`, the auxiliary tables
in order, filter `cond` verbatim. -/
theorem parseDeleteTail_schematic (T : List Char) (auxs : List (List Char))
    (cond : List Char) (hT : plainWord T) (hne : auxs ≠ [])
    (ha : ∀ a ∈ auxs, plainWord a ∧ a.map Char.toUpper ≠ kwWHERE)
    (hcond : skipSpaces cond = cond) :
    parseDeleteTail (T ++ (' ' :: (kwUSING ++ (' ' ::
        (commaJoin auxs ++ (' ' :: (kwWHERE ++ (' ' :: cond)))))))) =
      .descriptor ⟨.delete, ⟨T, [], T⟩,
        auxs.map (fun a => (⟨a, [], a⟩ : TableRef)), cond⟩ := by
  have hTns : ∀ c ∈ T, isSpaceChar c = false :=
    fun c hc => wordChar_not_space c (hT.2 c hc)
  have haux : ∀ a ∈ auxs, a ≠ [] ∧ (∀ c ∈ a, isSpaceChar c = false) ∧
      a.map Char.toUpper ≠ kwWHERE :=
    fun a hx => ⟨(ha a hx).1.1,
      fun c hc => wordChar_not_space c ((ha a hx).1.2 c hc), (ha a hx).2⟩
  have htw := takeWord_token T
    (kwUSING ++ (' ' :: (commaJoin auxs ++ (' ' :: (kwWHERE ++ (' ' :: cond))))))
    hTns
  have hdw := dropWord_token T
    (kwUSING ++ (' ' :: (commaJoin auxs ++ (' ' :: (kwWHERE ++ (' ' :: cond))))))
    hTns
  have hskip : skipSpaces
      (commaJoin auxs ++ (' ' :: (kwWHERE ++ ' ' :: cond))) =
      commaJoin auxs ++ (' ' :: (kwWHERE ++ ' ' :: cond)) :=
    skipSpaces_commaJoin_append auxs _ hne
      (fun a hx => ⟨(haux a hx).1, (haux a hx).2.1⟩)
  have hscan1 : scanTwoKws kwUSING kwWHERE
      (' ' :: (kwUSING ++ ' ' ::
        (commaJoin auxs ++ (' ' :: (kwWHERE ++ ' ' :: cond))))) true =
      ([' '], .first (commaJoin auxs ++ (' ' :: (kwWHERE ++ ' ' :: cond)))) := by
    rw [scan_sp_using, hskip]
  have hscan2 := scan_commaJoin_where auxs cond hne haux
  rw [hcond] at hscan2
  have htr : trimChars ([' '] : List Char) = [] := rfl
  simp only [parseDeleteTail, htw, hdw, hscan1, hscan2, htr, hT.1]
  simp [mkDescWithAux_commaJoin .delete T auxs cond hT hne
    (fun a hx => (ha a hx).1)]

/-- The UPDATE tail parser on the schematic
`T SET tok1 ... FROM a1, a2, ... WHERE cond` tail: primary `T`, the SET
tokens discarded, the auxiliary tables in order, filter `cond` verbatim. -/
theorem parseUpdateTail_schematic (T : List Char) (ts auxs : List (List Char))
    (cond : List Char) (hT : plainWord T) (hts : ts ≠ [])
    (htok : ∀ w ∈ ts, nonSpaceToken w ∧ w.map Char.toUpper ≠ kwFROM ∧
      w.map Char.toUpper ≠ kwWHERE)
    (hne : auxs ≠ [])
    (ha : ∀ a ∈ auxs, plainWord a ∧ a.map Char.toUpper ≠ kwWHERE)
    (hcond : skipSpaces cond = cond) :
    parseUpdateTail (T ++ (' ' :: (kwSET ++ (' ' ::
        (spaceJoin ts ++ (' ' :: (kwFROM ++ (' ' ::
          (commaJoin auxs ++ (' ' :: (kwWHERE ++ (' ' :: cond)))))))))))) =
      .descriptor ⟨.update, ⟨T, [], T⟩,
        auxs.map (fun a => (⟨a, [], a⟩ : TableRef)), cond⟩ := by
  have hTns : ∀ c ∈ T, isSpaceChar c = false :=
    fun c hc => wordChar_not_space c (hT.2 c hc)
  have haux : ∀ a ∈ auxs, a ≠ [] ∧ (∀ c ∈ a, isSpaceChar c = false) ∧
      a.map Char.toUpper ≠ kwWHERE :=
    fun a hx => ⟨(ha a hx).1.1,
      fun c hc => wordChar_not_space c ((ha a hx).1.2 c hc), (ha a hx).2⟩
  have htoks : ∀ w ∈ ts, w ≠ [] ∧ (∀ c ∈ w, isSpaceChar c = false) ∧
      w.map Char.toUpper ≠ kwFROM ∧ w.map Char.toUpper ≠ kwWHERE :=
    fun w hx => ⟨(htok w hx).1.1, (htok w hx).1.2,
      (htok w hx).2.1, (htok w hx).2.2⟩
  have htw := takeWord_token T
    (kwSET ++ (' ' :: (spaceJoin ts ++ (' ' :: (kwFROM ++ (' ' ::
      (commaJoin auxs ++ (' ' :: (kwWHERE ++ (' ' :: cond)))))))))) hTns
  have hdw := dropWord_token T
    (kwSET ++ (' ' :: (spaceJoin ts ++ (' ' :: (kwFROM ++ (' ' ::
      (commaJoin auxs ++ (' ' :: (kwWHERE ++ (' ' :: cond)))))))))) hTns
  have hset : isKw kwSET (skipSpaces (' ' :: (kwSET ++ (' ' ::
      (spaceJoin ts ++ (' ' :: (kwFROM ++ (' ' ::
        (commaJoin auxs ++ (' ' :: (kwWHERE ++ (' ' :: cond)))))))))))) =
      some (' ' :: (spaceJoin ts ++ (' ' :: (kwFROM ++ (' ' ::
        (commaJoin auxs ++ (' ' :: (kwWHERE ++ (' ' :: cond))))))))) := rfl
  have hss : skipSpaces (' ' :: (spaceJoin ts ++ (' ' :: (kwFROM ++ (' ' ::
      (commaJoin auxs ++ (' ' :: (kwWHERE ++ (' ' :: cond))))))))) =
      spaceJoin ts ++ (' ' :: (kwFROM ++ (' ' ::
        (commaJoin auxs ++ (' ' :: (kwWHERE ++ (' ' :: cond))))))) := by
    rw [show skipSpaces (' ' :: (spaceJoin ts ++ (' ' :: (kwFROM ++ (' ' ::
        (commaJoin auxs ++ (' ' :: (kwWHERE ++ (' ' :: cond))))))))) =
      skipSpaces (spaceJoin ts ++ (' ' :: (kwFROM ++ (' ' ::
        (commaJoin auxs ++ (' ' :: (kwWHERE ++ (' ' :: cond)))))))) from rfl]
    exact skipSpaces_spaceJoin_append ts _ hts
      (fun w hx => ⟨(htoks w hx).1, (htoks w hx).2.1⟩)
  have hskip : skipSpaces
      (commaJoin auxs ++ (' ' :: (kwWHERE ++ ' ' :: cond))) =
      commaJoin auxs ++ (' ' :: (kwWHERE ++ ' ' :: cond)) :=
    skipSpaces_commaJoin_append auxs _ hne
      (fun a hx => ⟨(haux a hx).1, (haux a hx).2.1⟩)
  have hscanF : scanTwoKws kwFROM kwWHERE
      (spaceJoin ts ++ (' ' :: (kwFROM ++ ' ' ::
        (commaJoin auxs ++ (' ' :: (kwWHERE ++ ' ' :: cond)))))) true =
      (spaceJoin ts ++ [' '],
        .first (commaJoin auxs ++ (' ' :: (kwWHERE ++ ' ' :: cond)))) := by
    rw [scan_spaceJoin_from ts _ hts htoks, hskip]
  have hscan2 := scan_commaJoin_where auxs cond hne haux
  rw [hcond] at hscan2
  simp only [parseUpdateTail, htw, hdw, hset, hss, hscanF, hscan2, hT.1]
  simp [mkDescWithAux_commaJoin .update T auxs cond hT hne
    (fun a hx => (ha a hx).1)]

/-- The analyzer on the schematic `DELETE FROM T USING ... WHERE cond`
statement. -/
theorem analyze_deleteUsing (T : List Char) (auxs : List (List Char))
    (cond : List Char) (hT : plainWord T) (hne : auxs ≠ [])
    (ha : ∀ a ∈ auxs, plainWord a ∧ a.map Char.toUpper ≠ kwWHERE)
    (hcond : skipSpaces cond = cond) :
    analyze (deleteUsingStatement T auxs cond) =
      .descriptor ⟨.delete, ⟨T, [], T⟩,
        auxs.map (fun a => (⟨a, [], a⟩ : TableRef)), cond⟩ := by
  have h0 : analyze (deleteUsingStatement T auxs cond) =
      parseDeleteTail (skipSpaces (T ++ (' ' :: (kwUSING ++ (' ' ::
        (commaJoin auxs ++ (' ' :: (kwWHERE ++ (' ' :: cond))))))))) := rfl
  have hhead : ∀ c s2, (T ++ (' ' :: (kwUSING ++ (' ' ::
      (commaJoin auxs ++ (' ' :: (kwWHERE ++ (' ' :: cond)))))))) = c :: s2 →
      isSpaceChar c = false := by
    intro c s2 he
    obtain ⟨c0, T2, hT0⟩ : ∃ c0 T2, T = c0 :: T2 := by
      cases T with
      | nil => exact absurd rfl hT.1
      | cons x xs => exact ⟨x, xs, rfl⟩
    rw [hT0, List.cons_append] at he
    injection he with he1 _
    rw [← he1]
    exact wordChar_not_space c0 (hT.2 c0 (by rw [hT0]; simp))
  rw [h0, skipSpaces_eq_self _ hhead]
  exact parseDeleteTail_schematic T auxs cond hT hne ha hcond

/-- The analyzer on the schematic `UPDATE T SET ... FROM ... WHERE cond`
statement. -/
theorem analyze_updateFrom (T : List Char) (ts auxs : List (List Char))
    (cond : List Char) (hT : plainWord T) (hts : ts ≠ [])
    (htok : ∀ w ∈ ts, nonSpaceToken w ∧ w.map Char.toUpper ≠ kwFROM ∧
      w.map Char.toUpper ≠ kwWHERE)
    (hne : auxs ≠ [])
    (ha : ∀ a ∈ auxs, plainWord a ∧ a.map Char.toUpper ≠ kwWHERE)
    (hcond : skipSpaces cond = cond) :
    analyze (updateFromStatement T ts auxs cond) =
      .descriptor ⟨.update, ⟨T, [], T⟩,
        auxs.map (fun a => (⟨a, [], a⟩ : TableRef)), cond⟩ := by
  have h0 : analyze (updateFromStatement T ts auxs cond) =
      parseUpdateTail (skipSpaces (T ++ (' ' :: (kwSET ++ (' ' ::
        (spaceJoin ts ++ (' ' :: (kwFROM ++ (' ' ::
          (commaJoin auxs ++ (' ' :: (kwWHERE ++ (' ' :: cond))))))))))))) := rfl
  have hhead : ∀ c s2, (T ++ (' ' :: (kwSET ++ (' ' ::
      (spaceJoin ts ++ (' ' :: (kwFROM ++ (' ' ::
        (commaJoin auxs ++ (' ' :: (kwWHERE ++ (' ' :: cond)))))))))))) = c :: s2 →
      isSpaceChar c = false := by
    intro c s2 he
    obtain ⟨c0, T2, hT0⟩ : ∃ c0 T2, T = c0 :: T2 := by
      cases T with
      | nil => exact absurd rfl hT.1
      | cons x xs => exact ⟨x, xs, rfl⟩
    rw [hT0, List.cons_append] at he
    injection he with he1 _
    rw [← he1]
    exact wordChar_not_space c0 (hT.2 c0 (by rw [hT0]; simp))
  rw [h0, skipSpaces_eq_self _ hhead]
  exact parseUpdateTail_schematic T ts auxs cond hT hts htok hne ha hcond

/-- The synthesized statement for a descriptor whose tables are plain
unqualified references, spelled out in full. -/
theorem synthesizeText_plain (d : Dialect) (backupSchema targetName : String)
    (kind : DmlKind) (T : List Char) (auxs : List (List Char))
    (cond : List Char) :
    synthesizeText d backupSchema targetName
        ⟨kind, ⟨T, [], T⟩, auxs.map (fun a => (⟨a, [], a⟩ : TableRef)), cond⟩ =
      "CREATE TABLE ".data ++ quoteIdentifier d backupSchema.data
        ++ '.' :: quoteIdentifier d targetName.data
        ++ " AS SELECT ".data ++ quoteIdentifier d T
        ++ ".* FROM ".data
        ++ (T ++ (auxs.map (fun a => ',' :: ' ' :: a)).flatten)
        ++ (if cond = [] then [] else " WHERE ".data ++ cond) ++ [';'] := by
  simp [synthesizeText, synthesizePrefixText, fromListText, List.map_map,
    Function.comp, List.append_assoc]
  exact congrArg List.flatten (List.map_congr_left (fun a _ => rfl))

/-- C5: for every statement of the schematic shape
`UPDATE T SET <assignments> FROM <aux tables> WHERE <cond>` — `T` a plain
identifier, the assignment tokens arbitrary whitespace-free tokens other
than `FROM`/`WHERE`, the auxiliary tables a non-empty list of plain
identifiers other than `WHERE`, the filter arbitrary text without leading
whitespace — the analyzer yields a descriptor that does not depend on the
SET assignments at all (they are entirely absent), and the synthesized
backup statement's FROM-list is the primary table followed by the
auxiliary tables in original order. -/
theorem c5_update_from_set_absent (d : Dialect) (backupSchema targetName : String)
    (T cond : List Char) (ts auxs : List (List Char))
    (hT : plainWord T) (hts : ts ≠ [])
    (htok : ∀ w ∈ ts, nonSpaceToken w ∧ w.map Char.toUpper ≠ kwFROM ∧
      w.map Char.toUpper ≠ kwWHERE)
    (hne : auxs ≠ [])
    (ha : ∀ a ∈ auxs, plainWord a ∧ a.map Char.toUpper ≠ kwWHERE)
    (hcond : skipSpaces cond = cond) :
    analyze (updateFromStatement T ts auxs cond) =
      .descriptor ⟨.update, ⟨T, [], T⟩,
        auxs.map (fun a => (⟨a, [], a⟩ : TableRef)), cond⟩ ∧
    synthesizeText d backupSchema targetName
        ⟨.update, ⟨T, [], T⟩,
          auxs.map (fun a => (⟨a, [], a⟩ : TableRef)), cond⟩ =
      "CREATE TABLE ".data ++ quoteIdentifier d backupSchema.data
        ++ '.' :: quoteIdentifier d targetName.data
        ++ " AS SELECT ".data ++ quoteIdentifier d T
        ++ ".* FROM ".data
        ++ (T ++ (auxs.map (fun a => ',' :: ' ' :: a)).flatten)
        ++ (if cond = [] then [] else " WHERE ".data ++ cond) ++ [';'] :=
  ⟨analyze_updateFrom T ts auxs cond hT hts htok hne ha hcond,
   synthesizeText_plain d backupSchema targetName .update T auxs cond⟩

/-- Witness for C5 at the UPDATE fixture shape
`UPDATE test SET test.c1 = 2 FROM test2 WHERE test.c1 = 1 and test.c1 = test2.c1`. -/
theorem c5_update_from_set_absent_witness :
    analyze (updateFromStatement "test".data
        ["test.c1".data, "=".data, "2".data] ["test2".data]
        "test.c1 = 1 and test.c1 = test2.c1".data) =
      .descriptor ⟨.update, ⟨"test".data, [], "test".data⟩,
        (["test2".data]).map (fun a => (⟨a, [], a⟩ : TableRef)),
        "test.c1 = 1 and test.c1 = test2.c1".data⟩ ∧
    synthesizeText .ansi "backupSchema" "rollback_0_test"
        ⟨.update, ⟨"test".data, [], "test".data⟩,
          (["test2".data]).map (fun a => (⟨a, [], a⟩ : TableRef)),
          "test.c1 = 1 and test.c1 = test2.c1".data⟩ =
      "CREATE TABLE ".data ++ quoteIdentifier .ansi "backupSchema".data
        ++ '.' :: quoteIdentifier .ansi "rollback_0_test".data
        ++ " AS SELECT ".data ++ quoteIdentifier .ansi "test".data
        ++ ".* FROM ".data
        ++ ("test".data ++
            ((["test2".data]).map (fun a => ',' :: ' ' :: a)).flatten)
        ++ (if "test.c1 = 1 and test.c1 = test2.c1".data = ([] : List Char)
            then [] else " WHERE ".data
              ++ "test.c1 = 1 and test.c1 = test2.c1".data) ++ [';'] :=
  c5_update_from_set_absent .ansi "backupSchema" "rollback_0_test"
    "test".data "test.c1 = 1 and test.c1 = test2.c1".data
    ["test.c1".data, "=".data, "2".data] ["test2".data]
    (by decide) (by decide) (by decide) (by decide) (by decide) (by decide)

/-- C6: for every statement of the schematic shape
`DELETE FROM T USING <aux tables> WHERE <cond>` — `T` a plain identifier,
the auxiliary tables a non-empty list of plain identifiers other than
`WHERE`, the filter arbitrary text without leading whitespace — the
analyzer yields a descriptor listing every auxiliary table after the
primary, and the synthesized SELECT's FROM-list contains the primary table
followed by every auxiliary table while its projection is the quoted
primary table name followed by `.*`. -/
theorem c6_delete_using_projection (d : Dialect) (backupSchema targetName : String)
    (T cond : List Char) (auxs : List (List Char))
    (hT : plainWord T) (hne : auxs ≠ [])
    (ha : ∀ a ∈ auxs, plainWord a ∧ a.map Char.toUpper ≠ kwWHERE)
    (hcond : skipSpaces cond = cond) :
    analyze (deleteUsingStatement T auxs cond) =
      .descriptor ⟨.delete, ⟨T, [], T⟩,
        auxs.map (fun a => (⟨a, [], a⟩ : TableRef)), cond⟩ ∧
    synthesizeText d backupSchema targetName
        ⟨.delete, ⟨T, [], T⟩,
          auxs.map (fun a => (⟨a, [], a⟩ : TableRef)), cond⟩ =
      "CREATE TABLE ".data ++ quoteIdentifier d backupSchema.data
        ++ '.' :: quoteIdentifier d targetName.data
        ++ " AS SELECT ".data ++ quoteIdentifier d T
        ++ ".* FROM ".data
        ++ (T ++ (auxs.map (fun a => ',' :: ' ' :: a)).flatten)
        ++ (if cond = [] then [] else " WHERE ".data ++ cond) ++ [';'] :=
  ⟨analyze_deleteUsing T auxs cond hT hne ha hcond,
   synthesizeText_plain d backupSchema targetName .delete T auxs cond⟩

/-- Witness for C6 at the DELETE fixture shape
`DELETE FROM t USING test WHERE t.c1 = 1 and t.a1 = test.a1`. -/
theorem c6_delete_using_projection_witness :
    analyze (deleteUsingStatement "t".data ["test".data]
        "t.c1 = 1 and t.a1 = test.a1".data) =
      .descriptor ⟨.delete, ⟨"t".data, [], "t".data⟩,
        (["test".data]).map (fun a => (⟨a, [], a⟩ : TableRef)),
        "t.c1 = 1 and t.a1 = test.a1".data⟩ ∧
    synthesizeText .ansi "backupSchema" "rollback_0_t"
        ⟨.delete, ⟨"t".data, [], "t".data⟩,
          (["test".data]).map (fun a => (⟨a, [], a⟩ : TableRef)),
          "t.c1 = 1 and t.a1 = test.a1".data⟩ =
      "CREATE TABLE ".data ++ quoteIdentifier .ansi "backupSchema".data
        ++ '.' :: quoteIdentifier .ansi "rollback_0_t".data
        ++ " AS SELECT ".data ++ quoteIdentifier .ansi "t".data
        ++ ".* FROM ".data
        ++ ("t".data ++ ((["test".data]).map (fun a => ',' :: ' ' :: a)).flatten)
        ++ (if "t.c1 = 1 and t.a1 = test.a1".data = ([] : List Char)
            then [] else " WHERE ".data
              ++ "t.c1 = 1 and t.a1 = test.a1".data) ++ [';'] :=
  c6_delete_using_projection .ansi "backupSchema" "rollback_0_t"
    "t".data "t.c1 = 1 and t.a1 = test.a1".data ["test".data]
    (by decide) (by decide) (by decide) (by decide)

end BytebaseBackup
